import Mathlib

/-!
Verification of the 2-3 B-tree implementation in `src/main.rs` (module `btree`).

The Rust code stores values of a totally ordered type `T` (here: `[LinearOrder T]`)
in a 2-3 tree whose nodes are either leaves (1-2 values) or internal nodes
(2-3 children, `children - 1` separator keys, plus a cached count of all values in
the subtree).  Leaves additionally form a doubly linked chain (`next_leaf` /
`previous_leaf`) that the iterator walks.

Shallow embedding notes:

* `Rc<T>` values are compared only through `T`'s order, so they are modelled as
  plain `T` values.  Parent back-pointers (`parent: Weak<...>`) are only used to
  walk back up the very path the insertion descended, so the functional
  embedding `insertNode` performs the same bottom-up processing by returning an
  `InsRes` to the caller; no separate parent representation is needed.
* The leaf chain is modelled as the left-to-right list of leaves of the tree
  (`leavesList`).  The source maintains exactly this correspondence: a leaf
  split links `prev -> first -> second -> next` (lines 628-665, 545-570) while
  replacing the old leaf by `first, second` at the same position of the parent's
  child list (lines 674-680), and internal-node splits (lines 714-781, 785-832)
  keep the order of the `children` vectors, so at every step the chain is the
  in-order sequence of leaves.
* Panics of the source (`unreachable!()`, out-of-bounds indexing, `unwrap()` on
  `None`) are modelled by explicit default results or by `Option`/`panicked`
  results; each such place is marked below.
-/

/-- The node type, `enum BTreeNode` (src lines 13-17) with the payloads of
`BTreeLeaf` (lines 19-25) and `BTreeSubTree` (lines 33-39) inlined.
`values`/`mid_keys` keep their sorted contents; `valuesNumber` is the cached
`values_number` field of `BTreeSubTree`.  Parent and sibling pointers are
represented implicitly (see the header comment). -/
inductive BTreeNode (T : Type) where
  | leaf (values : List T)
  | subtree (children : List (BTreeNode T)) (midKeys : List T) (valuesNumber : Nat)

/-- `MAX_KEYS` (src line 10). -/
def MAX_KEYS : Nat := 2

/-- `MAX_CHILDREN` (src line 11; declared in the source but not referenced by it). -/
def MAX_CHILDREN : Nat := 3

/-- `BTreeNode::values_number` (src lines 383-388): a leaf reports its value
count, an internal node reports its cached `values_number` field. -/
def valuesNumber {T : Type} : BTreeNode T → Nat
  | .leaf vs => vs.length
  | .subtree _ _ n => n

/-- `BTreeSubTree::new` (src lines 161-179): the cached count is computed as the
sum of the children's `values_number`. -/
def subtreeNew {T : Type} (children : List (BTreeNode T)) (midKeys : List T) : BTreeNode T :=
  .subtree children midKeys (children.map valuesNumber).sum

/-- `BTreeSubTree::get_children_index_by_value` (src lines 181-201).
With one separator key: child 0 iff `value < k0`, else child 1.
With two separator keys: child 0 iff `value < k0`, child 1 iff
`k0 < value && value < k1`, else child 2.  Any other key count hits
`unreachable!()` in the source; that panic is modelled by the result 0
(it cannot occur on trees satisfying the structural invariant). -/
def getChildrenIndexByValue {T : Type} [LinearOrder T] (midKeys : List T) (value : T) : Nat :=
  match midKeys with
  | [k0] => if value < k0 then 0 else 1
  | [k0, k1] => if value < k0 then 0 else if k0 < value ∧ value < k1 then 1 else 2
  | _ => 0

mutual
/-- All values stored in the subtree, in leaf-chain (left-to-right) order. -/
def vals {T : Type} : BTreeNode T → List T
  | .leaf vs => vs
  | .subtree cs _ _ => valsL cs
/-- `vals` concatenated over a child list. -/
def valsL {T : Type} : List (BTreeNode T) → List T
  | [] => []
  | c :: cs => vals c ++ valsL cs
end

mutual
/-- The leaf chain of the subtree: the value lists of its leaves in
left-to-right order (see the header comment for why this models the
`next_leaf`/`previous_leaf` links of the source). -/
def leavesList {T : Type} : BTreeNode T → List (List T)
  | .leaf vs => [vs]
  | .subtree cs _ _ => leavesListL cs
/-- `leavesList` concatenated over a child list. -/
def leavesListL {T : Type} : List (BTreeNode T) → List (List T)
  | [] => []
  | c :: cs => leavesList c ++ leavesListL cs
end

/-- Result of inserting into a subtree: either the updated node, or the two
nodes and promoted middle key produced by a split (the information the source
hands to the parent via `insert_mid_key_to_parent_subtree`, src lines 685-783). -/
inductive InsRes (T : Type) where
  | one (node : BTreeNode T)
  | split (left : BTreeNode T) (midKey : T) (right : BTreeNode T)

mutual
/-- Insertion into a node, combining the source's descent and bottom-up split
propagation:

* leaf branch = `insert_to_root_leaf` (src lines 532-577) and `insert_to_leaf`
  (src lines 613-683): push the value, sort (`values.sort()`), and if more than
  `MAX_KEYS` values remain, split into `values[0..1]` / `values[1..]` and
  promote `values[1]`;
* subtree branch = `insert_to_subtree` / `insert_to_children_subtree`
  (src lines 579-611) choosing the child by `get_children_index_by_value`,
  plus `insert_mid_key_to_parent_subtree` (src lines 685-783): on a child
  split the child at index `i` is replaced by the two new nodes
  (`children.remove(i); children.insert(i, first); children.insert(i+1, second)`,
  modelled as `take i ++ [l, r] ++ drop (i+1)`), the promoted key is pushed and
  sorted into `mid_keys`, and if more than `MAX_KEYS` keys remain the node
  itself splits into `children[..2]`/`mid_keys[0]` and `children[2..]`/
  `mid_keys[2]`, promoting `mid_keys[1]` (also `rebalance_root_after_mid_key_insertion`,
  src lines 785-832, which performs the same split for the root).

Counter maintenance: `update_parent_value_number` (src lines 390-403) adds 1 to
the cached count of every node on the descent path; nodes rebuilt by a split
get their count recomputed by `BTreeSubTree::new`.  The `.one` branches
therefore use `n + 1` and the split branches use `subtreeNew`.

`childIns ... = none` models the panic of the out-of-bounds child access
`children[child_subtree_index]` (src line 601), unreachable under the
structural invariant; the node is returned unchanged in that case. -/
def insertNode {T : Type} [LinearOrder T] : BTreeNode T → T → InsRes T
  | .leaf vs, v =>
    let vs2 := List.insertionSort (· ≤ ·) (vs ++ [v])
    if vs2.length ≤ MAX_KEYS then .one (.leaf vs2)
    else .split (.leaf (vs2.take 1)) (vs2.getD 1 v) (.leaf (vs2.drop 1))
  | .subtree cs ks n, v =>
    let i := getChildrenIndexByValue ks v
    match childIns cs i v with
    | none => .one (.subtree cs ks n)
    | some (.one c2) => .one (.subtree (cs.take i ++ [c2] ++ cs.drop (i+1)) ks (n+1))
    | some (.split l k r) =>
      let cs2 := cs.take i ++ [l, r] ++ cs.drop (i+1)
      let ks2 := List.insertionSort (· ≤ ·) (ks ++ [k])
      if ks2.length ≤ MAX_KEYS then .one (.subtree cs2 ks2 (n+1))
      else .split (subtreeNew (cs2.take 2) (ks2.take 1)) (ks2.getD 1 k)
             (subtreeNew (cs2.drop 2) (ks2.drop 2))

/-- Access `children[i]` and insert there (src lines 598-610); `none` models the
index-out-of-bounds panic. -/
def childIns {T : Type} [LinearOrder T] : List (BTreeNode T) → Nat → T → Option (InsRes T)
  | [], _, _ => none
  | c :: _, 0, v => some (insertNode c v)
  | _ :: cs, i+1, v => childIns cs i v
end

/-- `BTree::new_root_after_division` (src lines 485-507): a new internal root
with the two nodes as children and the promoted key as sole separator; its
count is computed by `BTreeSubTree::new`. -/
def newRootAfterDivision {T : Type} (first second : BTreeNode T) (midKey : T) : BTreeNode T :=
  subtreeNew [first, second] [midKey]

/-- `struct BTree` (src lines 41-44): an optional root node. -/
structure BTree (T : Type) where
  root : Option (BTreeNode T)

/-- `BTree::new` (src lines 461-464). -/
def BTree.new {T : Type} : BTree T := ⟨none⟩

/-- `BTree::insert` (src lines 509-530): an empty tree gets a single-leaf root;
otherwise the root is inserted into, and a root split is finished by
`new_root_after_division` (via `insert_to_root_leaf` or
`rebalance_root_after_mid_key_insertion`). -/
def BTree.insert {T : Type} [LinearOrder T] (t : BTree T) (v : T) : BTree T :=
  match t.root with
  | none => ⟨some (.leaf [v])⟩
  | some r =>
    match insertNode r v with
    | .one r2 => ⟨some r2⟩
    | .split l k rr => ⟨some (newRootAfterDivision l rr k)⟩

/-- `BTree::len` (src lines 466-472). -/
def BTree.len {T : Type} (t : BTree T) : Nat :=
  (t.root.map valuesNumber).getD 0

/-- `Extend::extend` (src lines 895-900): repeated insertion. -/
def BTree.extend {T : Type} [LinearOrder T] (t : BTree T) (l : List T) : BTree T :=
  l.foldl BTree.insert t

/-- `FromIterator::from_iter` (src lines 902-909): bulk construction by
repeated insertion into a new tree. -/
def BTree.fromList {T : Type} [LinearOrder T] (l : List T) : BTree T :=
  BTree.new.extend l

/-- All values of the tree in leaf-chain order. -/
def BTree.valsOf {T : Type} (t : BTree T) : List T :=
  (t.root.map vals).getD []

mutual
/-- `BTreeNode::get` (src lines 405-440): at a leaf, index into the values
(`values[index]`, whose out-of-bounds panic is modelled by `Option`); at an
internal node, scan the children left to right subtracting each child's cached
`values_number` from the index until it fits (`skip_while`), then descend. -/
def nodeGet {T : Type} : BTreeNode T → Nat → Option T
  | .leaf vs, i => getElem? vs i
  | .subtree cs _ _, i => childGet cs i
/-- The child scan of `BTreeNode::get`; `none` models the `.unwrap()` panic when
every child is skipped (src line 433). -/
def childGet {T : Type} : List (BTreeNode T) → Nat → Option T
  | [], _ => none
  | c :: cs, i => if i < valuesNumber c then nodeGet c i else childGet cs (i - valuesNumber c)
end

/-- `BTree::get` (src lines 864-871): `None` for `index >= len()`, otherwise
`get_unchecked` on the root. -/
def BTree.get {T : Type} (t : BTree T) (i : Nat) : Option T :=
  if t.len ≤ i then none
  else
    match t.root with
    | none => none
    | some r => nodeGet r i

mutual
/-- `BTreeNode::find` (src lines 442-457): descend by
`get_children_index_by_value` until a leaf is reached; the result is that leaf. -/
def BTreeNode.find {T : Type} [LinearOrder T] : BTreeNode T → T → BTreeNode T
  | .leaf vs, _ => .leaf vs
  | .subtree cs ks _, v => childFind cs (getChildrenIndexByValue ks v) v
/-- Access `children[child_index]` for the descent of `BTreeNode::find`
(src line 453); the empty case models the out-of-bounds panic. -/
def childFind {T : Type} [LinearOrder T] : List (BTreeNode T) → Nat → T → BTreeNode T
  | [], _, _ => .leaf []
  | c :: _, 0, v => BTreeNode.find c v
  | _ :: cs, i+1, v => childFind cs i v
end

mutual
/-- The position (in the leaf chain `leavesList`) of the leaf that
`BTreeNode::find` descends to: descending into child `i` skips all leaves of
the children before it. -/
def findLeafIdx {T : Type} [LinearOrder T] : BTreeNode T → T → Nat
  | .leaf _, _ => 0
  | .subtree cs ks _, v => childFindIdx cs (getChildrenIndexByValue ks v) v
/-- Helper of `findLeafIdx` walking the child list. -/
def childFindIdx {T : Type} [LinearOrder T] : List (BTreeNode T) → Nat → T → Nat
  | [], _, _ => 0
  | c :: _, 0, v => findLeafIdx c v
  | c :: cs, i+1, v => (leavesList c).length + childFindIdx cs i v
end

/-- `struct BTreeIter` (src lines 27-31).  `cur_leaf` is `rest.head?` (so
`rest = []` models `cur_leaf = None`, the exhausted cursor), `rest.tail` are
the leaves reachable by `next_leaf` links, `before` are the leaves reachable by
`previous_leaf` links (nearest first), and `ind` is `cur_ind`. -/
structure BTreeIter (T : Type) where
  before : List (List T)
  rest : List (List T)
  ind : Nat

/-- Result of one iterator step: Rust's `None` (`exhausted`), a panic inside
the step (`panicked`, for the out-of-bounds `get_values()[output_index]`,
src lines 101/139), or `Some(value)` together with the mutated iterator. -/
inductive StepResult (T : Type) where
  | exhausted
  | panicked
  | yielded (v : T) (it : BTreeIter T)

/-- `Iterator::next` for `BTreeIter` (src lines 80-115): `None` when
`cur_leaf` is `None`; otherwise read `values[cur_ind]` (panics if out of
bounds), then either advance `cur_ind` (when `cur_ind + 1 < len`) or move to
the `next_leaf` with `cur_ind = 0` (becoming exhausted when there is none). -/
def BTreeIter.next {T : Type} : BTreeIter T → StepResult T
  | ⟨_, [], _⟩ => .exhausted
  | ⟨bf, c :: cs, i⟩ =>
    match getElem? c i with
    | none => .panicked
    | some x =>
      if i + 1 < c.length then .yielded x ⟨bf, c :: cs, i + 1⟩
      else .yielded x ⟨c :: bf, cs, 0⟩

/-- `DoubleEndedIterator::next_back` for `BTreeIter` (src lines 117-159):
`None` when `cur_leaf` is `None`; otherwise read `values[cur_ind]` (panics if
out of bounds), then either decrement `cur_ind` (when `cur_ind > 0`) or move to
the `previous_leaf`, setting `cur_ind` to that leaf's `values.len()`
(src lines 145-150) — note: one past its last valid offset — or exhaust the
cursor when there is no previous leaf. -/
def BTreeIter.nextBack {T : Type} : BTreeIter T → StepResult T
  | ⟨_, [], _⟩ => .exhausted
  | ⟨bf, c :: cs, i⟩ =>
    match getElem? c i with
    | none => .panicked
    | some x =>
      if 0 < i then .yielded x ⟨bf, c :: cs, i - 1⟩
      else
        match bf with
        | [] => .yielded x ⟨[], [], 0⟩
        | b :: bs => .yielded x ⟨bs, b :: c :: cs, b.length⟩

/-- `BTree::iter` (src lines 850-857): a cursor at the first leaf
(`BTreeNode::first_leaf`, the head of the leaf chain) with index 0, or the
default (exhausted) cursor for an empty tree. -/
def BTree.iter {T : Type} (t : BTree T) : BTreeIter T :=
  match t.root with
  | none => ⟨[], [], 0⟩
  | some r => ⟨[], leavesList r, 0⟩

/-- `IntoIterator::into_iter` (src lines 911-922): same construction as
`BTree::iter`. -/
def BTree.intoIter {T : Type} (t : BTree T) : BTreeIter T :=
  match t.root with
  | none => ⟨[], [], 0⟩
  | some r => ⟨[], leavesList r, 0⟩

/-- `Iterator::position` specialised to the predicate `(>= v)` used by
`BTree::find` (src lines 879-885): index of the first element `x` with
`v <= x`, if any. -/
def positionGe {T : Type} [LinearOrder T] (v : T) : List T → Option Nat
  | [] => none
  | x :: xs => if v ≤ x then some 0 else (positionGe v xs).map (· + 1)

/-- `BTree::find` (src lines 873-892): descend with `BTreeNode::find` to a
leaf, then `position(|v| **v >= *value)` inside that leaf; `None` (no such
position, or empty tree) yields the default (exhausted) cursor, otherwise the
cursor sits at the found leaf (placed at `findLeafIdx` within the chain) with
that position as index. -/
def BTree.find {T : Type} [LinearOrder T] (t : BTree T) (v : T) : BTreeIter T :=
  match t.root with
  | none => ⟨[], [], 0⟩
  | some r =>
    match positionGe v (vals (r.find v)) with
    | none => ⟨[], [], 0⟩
    | some j =>
      ⟨((leavesList r).take (findLeafIdx r v)).reverse, (leavesList r).drop (findLeafIdx r v), j⟩

/-- Forward iteration with explicit fuel (structural recursion so that concrete
runs evaluate in the kernel): repeatedly apply `BTreeIter.next`, collecting the
yielded values, stopping on `exhausted` or `panicked`. -/
def forwardN {T : Type} : Nat → BTreeIter T → List T
  | 0, _ => []
  | fuel + 1, it =>
    match it.next with
    | .yielded v it2 => v :: forwardN fuel it2
    | _ => []

/-- Upper bound on the number of remaining forward steps of a cursor. -/
def itBound {T : Type} : BTreeIter T → Nat
  | ⟨_, [], _⟩ => 0
  | ⟨_, c :: cs, i⟩ => (c.length - i) + (cs.map List.length).sum

/-- The full forward run of a cursor (fuel large enough; see
`forwardList_eq_next` below for the certification that this is exactly the
iteration of `BTreeIter.next`). -/
def forwardList {T : Type} (it : BTreeIter T) : List T :=
  forwardN ((it.rest.map List.length).sum + 1) it

/-- Backward iteration with fuel: repeatedly apply `BTreeIter.nextBack`; the
boolean records whether the run ended in a panic. -/
def backN {T : Type} : Nat → BTreeIter T → List T × Bool
  | 0, _ => ([], false)
  | fuel + 1, it =>
    match it.nextBack with
    | .yielded v it2 =>
      let p := backN fuel it2
      (v :: p.1, p.2)
    | .panicked => ([], true)
    | .exhausted => ([], false)

/-- The full backward run of a cursor. -/
def backList {T : Type} (it : BTreeIter T) : List T × Bool :=
  backN ((it.before.map List.length).sum + (it.rest.map List.length).sum + it.ind + 2) it

/-- Run a sequence of iterator steps on one cursor (`true` = `next`,
`false` = `next_back`), recording for each step the yielded value (`none` when
the step returned `None` or panicked; a non-yielding step leaves the cursor
unchanged, as in the source). -/
def runSeq {T : Type} : List Bool → BTreeIter T → List (Option T)
  | [], _ => []
  | d :: ds, it =>
    match (if d then it.next else it.nextBack) with
    | .yielded v it2 => some v :: runSeq ds it2
    | _ => none :: runSeq ds it

/-- The value of a yielding step, if any. -/
def StepResult.yieldedVal {T : Type} : StepResult T → Option T
  | .yielded v _ => some v
  | _ => none

/-- The cursor after a yielding step (the exhausted cursor otherwise). -/
def StepResult.afterIt {T : Type} : StepResult T → BTreeIter T
  | .yielded _ it => it
  | _ => ⟨[], [], 0⟩

/-- `BTreeNode::get_values` (src lines 306-312): a leaf's values or an internal
node's separator keys. -/
def getValues {T : Type} : BTreeNode T → List T
  | .leaf vs => vs
  | .subtree _ ks _ => ks

mutual
/-- Structural invariant of a node (spec section 3): each leaf holds 1-2 values
sorted ascending; each internal node has 2-3 children, exactly
`children - 1` separator keys sorted ascending, and a cached count equal to the
sum of its children's counts; recursively for all children. -/
def StructInv {T : Type} [LinearOrder T] : BTreeNode T → Prop
  | .leaf vs => 1 ≤ vs.length ∧ vs.length ≤ 2 ∧ vs.Sorted (· ≤ ·)
  | .subtree cs ks n => 2 ≤ cs.length ∧ cs.length ≤ 3 ∧ ks.length + 1 = cs.length ∧
      ks.Sorted (· ≤ ·) ∧ n = (cs.map valuesNumber).sum ∧ StructInvL cs
/-- `StructInv` for every node of a child list. -/
def StructInvL {T : Type} [LinearOrder T] : List (BTreeNode T) → Prop
  | [] => True
  | c :: cs => StructInv c ∧ StructInvL cs
end

/-- All values of the list are strictly below the key. -/
def belowAll {T : Type} [LinearOrder T] (xs : List T) (k : T) : Prop :=
  ∀ x ∈ xs, x < k

/-- Separator condition for a duplicate-free tree: every separator key is the
first (least) value of the child to its right, and all values of the child to
its left are strictly below it. -/
def SepOK {T : Type} [LinearOrder T] : List (BTreeNode T) → List T → Prop
  | [c0, c1], [k0] => belowAll (vals c0) k0 ∧ (vals c1).head? = some k0
  | [c0, c1, c2], [k0, k1] =>
      belowAll (vals c0) k0 ∧ (vals c1).head? = some k0 ∧
      belowAll (vals c1) k1 ∧ (vals c2).head? = some k1
  | _, _ => False

mutual
/-- Ordering invariant of a duplicate-free tree: leaves are strictly sorted and
every internal node satisfies `SepOK`. -/
def OrdInv {T : Type} [LinearOrder T] : BTreeNode T → Prop
  | .leaf vs => vs.Sorted (· < ·)
  | .subtree cs ks _ => OrdInvL cs ∧ SepOK cs ks
/-- `OrdInv` for every node of a child list. -/
def OrdInvL {T : Type} [LinearOrder T] : List (BTreeNode T) → Prop
  | [] => True
  | c :: cs => OrdInv c ∧ OrdInvL cs
end

/-- Induction over `BTreeNode` with the hypothesis available for every member
of the child list. -/
theorem nodeInd {T : Type} (P : BTreeNode T → Prop)
    (hleaf : ∀ vs, P (.leaf vs))
    (hsub : ∀ cs ks n, (∀ c ∈ cs, P c) → P (.subtree cs ks n)) :
    ∀ t, P t
  | .leaf vs => hleaf vs
  | .subtree cs ks n => hsub cs ks n (fun c hc => nodeInd P hleaf hsub c)
termination_by t => sizeOf t
decreasing_by
  have h1 := List.sizeOf_lt_of_mem hc
  simp only [BTreeNode.subtree.sizeOf_spec]
  omega

/-- C2, counterexample: with separator keys `k0 = 0 < 1 = k1` and probe
`v = 0`, we have `k0 <= v <= k1`, yet the descent rule chooses child 2, not
child 1 as the claim states. -/
theorem c2_counterexample :
    (0 : Int) < 1 ∧ (0 : Int) ≤ 0 ∧ (0 : Int) ≤ 1 ∧
      getChildrenIndexByValue [(0 : Int), 1] 0 ≠ 1 := by
  refine ⟨by decide, by decide, by decide, ?_⟩
  decide

/-- C2, amended: with two separator keys `k0 < k1` the descent rule chooses
child 0 iff `v < k0`, child 1 iff `k0 < v < k1` (strictly between), and child 2
otherwise — i.e. when `v = k0` or `v ≥ k1`, so a value equal to either
separator key routes to child 2; with one separator key `k` it chooses child 0
iff `v < k` and child 1 iff `k ≤ v`. -/
theorem c2_amended {T : Type} [LinearOrder T] (k0 k1 k v : T) (h : k0 < k1) :
    (getChildrenIndexByValue [k0, k1] v = 0 ↔ v < k0) ∧
    (getChildrenIndexByValue [k0, k1] v = 1 ↔ k0 < v ∧ v < k1) ∧
    (getChildrenIndexByValue [k0, k1] v = 2 ↔ v = k0 ∨ k1 ≤ v) ∧
    (getChildrenIndexByValue [k] v = 0 ↔ v < k) ∧
    (getChildrenIndexByValue [k] v = 1 ↔ k ≤ v) := by
  have e2 : getChildrenIndexByValue [k0, k1] v =
      if v < k0 then 0 else if k0 < v ∧ v < k1 then 1 else 2 := rfl
  have e1 : getChildrenIndexByValue [k] v = if v < k then 0 else 1 := rfl
  refine ⟨?_, ?_, ?_, ?_, ?_⟩
  · rw [e2]
    by_cases h0 : v < k0
    · simp [h0]
    · by_cases h1 : k0 < v ∧ v < k1 <;> simp [h0, h1]
  · rw [e2]
    by_cases h0 : v < k0
    · simp only [if_pos h0]
      constructor
      · intro habs; exact absurd habs (by simp)
      · rintro ⟨hgt, _⟩; exact absurd h0 (not_lt_of_lt hgt)
    · by_cases h1 : k0 < v ∧ v < k1 <;> simp [h0, h1]
  · rw [e2]
    by_cases h0 : v < k0
    · simp only [if_pos h0]
      constructor
      · intro habs; exact absurd habs (by simp)
      · rintro (rfl | hle)
        · exact absurd h0 (lt_irrefl v)
        · exact absurd (h0.trans h) (not_lt_of_le hle)
    · by_cases h1 : k0 < v ∧ v < k1
      · simp only [if_neg h0, if_pos h1]
        constructor
        · intro habs; exact absurd habs (by simp)
        · rintro (rfl | hle)
          · exact absurd h1.1 (lt_irrefl v)
          · exact absurd h1.2 (not_lt_of_le hle)
      · simp only [if_neg h0, if_neg h1]
        constructor
        · intro _
          rcases eq_or_lt_of_le (le_of_not_lt h0) with heq | hlt
          · exact Or.inl heq.symm
          · refine Or.inr (le_of_not_lt ?_)
            intro hvk1
            exact h1 ⟨hlt, hvk1⟩
        · intro _; trivial
  · rw [e1]
    by_cases h0 : v < k <;> simp [h0]
  · rw [e1]
    by_cases h0 : v < k
    · simp only [if_pos h0]
      constructor
      · intro habs; exact absurd habs (by simp)
      · intro hle; exact absurd h0 (not_lt_of_le hle)
    · simp [h0, le_of_not_lt h0]

/-- C2, witness for the amended theorem at `k0 = 0`, `k1 = 1`, `k = 0`,
`v = 0`. -/
theorem c2_witness :
    (getChildrenIndexByValue [(0 : Int), 1] 0 = 0 ↔ (0 : Int) < 0) ∧
    (getChildrenIndexByValue [(0 : Int), 1] 0 = 1 ↔ (0 : Int) < 0 ∧ (0 : Int) < 1) ∧
    (getChildrenIndexByValue [(0 : Int), 1] 0 = 2 ↔ (0 : Int) = 0 ∨ (1 : Int) ≤ 0) ∧
    (getChildrenIndexByValue [(0 : Int)] 0 = 0 ↔ (0 : Int) < 0) ∧
    (getChildrenIndexByValue [(0 : Int)] 0 = 1 ↔ (0 : Int) ≤ 0) :=
  c2_amended 0 1 0 0 (by decide)

/-- C1, counterexample: inserting `0,10,20,30,40,25,20,20` (a sequence with
duplicates) and iterating forward yields `[0,10,20,20,25,20,30,40]`, which is
not the sorted multiset of the input — the duplicate `20`, being equal to a
separator key, was routed to the right of values between `20` and `30`. -/
theorem c1_counterexample :
    forwardList ((BTree.fromList ([0, 10, 20, 30, 40, 25, 20, 20] : List Int)).iter) ≠
      List.insertionSort (· ≤ ·) ([0, 10, 20, 30, 40, 25, 20, 20] : List Int) := by
  decide

/-- C3, counterexample: in the tree built from `0,10,20,30` (leaves
`[0] [10] [20,30]`), `find 15` descends to the leaf `[10]`, finds no value
`≥ 15` there, and returns an exhausted cursor — although the stored value `20`
satisfies `15 ≤ 20`, so the claimed "smallest stored value ≥ v" exists. -/
theorem c3_counterexample :
    ((BTree.fromList ([0, 10, 20, 30] : List Int)).find 15).next = StepResult.exhausted ∧
    (20 : Int) ∈ (BTree.fromList ([0, 10, 20, 30] : List Int)).valsOf ∧ (15 : Int) ≤ 20 :=
  ⟨rfl, by decide, by decide⟩

/-- C4, counterexample: after inserting `0,10,20,30,40,25,20,20` (duplicates),
`get 4` returns `25`, but the rank-4 value of the stored multiset (0-based,
with multiplicity) is `20`. -/
theorem c4_counterexample :
    (BTree.fromList ([0, 10, 20, 30, 40, 25, 20, 20] : List Int)).get 4 = some 25 ∧
    (List.insertionSort (· ≤ ·) ([0, 10, 20, 30, 40, 25, 20, 20] : List Int)).getD 4 0 = 20 ∧
    (25 : Int) ≠ 20 :=
  ⟨rfl, rfl, by decide⟩

/-- C6, code bug: in the tree built from `0,1,2,3` (leaf chain
`[0] -> [1] -> [2,3]`), the cursor returned by `find 3` sits at the last value;
stepping backward yields `3`, then `2`, and then panics (out-of-bounds read),
because crossing a leaf boundary sets `cur_ind` to the previous leaf's
`values.len()` — one past its last valid offset — instead of the last valid
offset.  The claimed full reverse run `[3,2,1,0]` is never produced. -/
theorem c6_bug_eval :
    backList ((BTree.fromList ([0, 1, 2, 3] : List Int)).find 3) = ([3, 2], true) := rfl

/-- C7, code bug: on the tree holding `{0, 1}` (a single leaf `[0,1]`), the
step sequence `next, next_back, next` yields `0, 1, 0`: the element `0` is
yielded twice because `next` and `next_back` read and move the same single
cursor position instead of two independent ends. -/
theorem c7_bug_eval :
    runSeq [true, false, true] ((BTree.fromList ([0, 1] : List Int)).iter) =
      [some 0, some 1, some 0] := rfl

/-- C9, counterexample: after inserting `0,1,2,3` the root has three children
with leaf chain `[0] -> [1] -> [2,3]` and separator keys `1,2` — not the
claimed 2-child root with separator key `2` and chain `[0,1] -> [2,3]`
(the first split already happens at the insertion of `2`). -/
theorem c9_counterexample :
    (BTree.fromList ([0, 1, 2, 3] : List Int)).root.map leavesList ≠
        some [[0, 1], [2, 3]] ∧
    (BTree.fromList ([0, 1, 2, 3] : List Int)).root.map getValues ≠ some [2] := by
  constructor <;> decide

/-- C9, amended: inserting `0,1,2` already triggers the root-leaf split (the
leaf would hold 3 values at the third insertion), producing a 2-child internal
root with separator key `1` and leaf chain `[0] -> [1,2]`; inserting `3` then
splits the second leaf, so the root holds separator keys `1,2` over the leaf
chain `[0] -> [1] -> [2,3]`. -/
theorem c9_amended :
    BTree.fromList ([0, 1, 2] : List Int) =
      ⟨some (.subtree [.leaf [0], .leaf [1, 2]] [1] 3)⟩ ∧
    BTree.fromList ([0, 1, 2, 3] : List Int) =
      ⟨some (.subtree [.leaf [0], .leaf [1], .leaf [2, 3]] [1, 2] 4)⟩ :=
  ⟨rfl, rfl⟩

/-- C10: on the empty tree, `iter` and `into_iter` return the default
(exhausted) cursor: `next` and `next_back` return `None` (no panic), any
sequence of steps yields nothing, and full forward/backward runs are empty
(with no panic). -/
theorem c10_empty_iter {T : Type} [LinearOrder T] :
    (BTree.new : BTree T).iter.next = StepResult.exhausted ∧
    (BTree.new : BTree T).iter.nextBack = StepResult.exhausted ∧
    (BTree.new : BTree T).intoIter.next = StepResult.exhausted ∧
    (BTree.new : BTree T).intoIter.nextBack = StepResult.exhausted ∧
    (BTree.fromList ([] : List T)).iter.next = StepResult.exhausted ∧
    (BTree.fromList ([] : List T)).intoIter.nextBack = StepResult.exhausted ∧
    forwardList (BTree.new : BTree T).iter = [] ∧
    backList (BTree.new : BTree T).intoIter = ([], false) ∧
    runSeq [true, false, true, false] (BTree.new : BTree T).iter =
      [none, none, none, none] :=
  ⟨rfl, rfl, rfl, rfl, rfl, rfl, rfl, rfl, rfl⟩

/-- Pushing a value and sorting a sorted vector (as `insert_to_leaf` and
`insert_mid_key_to_parent_subtree` do) is ordered insertion. -/
theorem sortPush {T : Type} [LinearOrder T] (vs : List T) (v : T) (h : vs.Sorted (· ≤ ·)) :
    List.insertionSort (· ≤ ·) (vs ++ [v]) = vs.orderedInsert (· ≤ ·) v :=
  List.eq_of_perm_of_sorted
    (((List.perm_insertionSort _ _).trans (List.perm_append_singleton _ _)).trans
      (List.perm_orderedInsert _ _ _).symm)
    (List.sorted_insertionSort _ _) (h.orderedInsert _ _)

/-- Ordered insertion into a concatenation lands in the left part when every
element of the right part is at least the inserted value. -/
theorem orderedInsert_append_right {T : Type} [LinearOrder T] (v : T) (l1 l2 : List T)
    (h : ∀ y ∈ l2, v ≤ y) :
    (l1 ++ l2).orderedInsert (· ≤ ·) v = l1.orderedInsert (· ≤ ·) v ++ l2 := by
  induction l1 with
  | nil =>
    cases l2 with
    | nil => rfl
    | cons y ys => simp [List.orderedInsert, h y (by simp)]
  | cons a l1 ih =>
    by_cases hva : v ≤ a
    · simp [List.orderedInsert, hva]
    · simp only [List.cons_append, List.orderedInsert, if_neg hva]
      exact congrArg (a :: ·) ih

/-- Ordered insertion into a concatenation lands in the right part when every
element of the left part is strictly below the inserted value. -/
theorem orderedInsert_append_left {T : Type} [LinearOrder T] (v : T) (l1 l2 : List T)
    (h : ∀ x ∈ l1, x < v) :
    (l1 ++ l2).orderedInsert (· ≤ ·) v = l1 ++ l2.orderedInsert (· ≤ ·) v := by
  induction l1 with
  | nil => rfl
  | cons a l1 ih =>
    have hna : ¬ v ≤ a := not_le_of_lt (h a (by simp))
    simp only [List.cons_append, List.orderedInsert, if_neg hna]
    exact congrArg (a :: ·) (ih (fun x hx => h x (by simp [hx])))

/-- Ordered insertion of a fresh value into a strictly sorted list is strictly
sorted. -/
theorem orderedInsert_sorted_lt {T : Type} [LinearOrder T] (vs : List T) (v : T)
    (hs : vs.Sorted (· < ·)) (hv : v ∉ vs) :
    (vs.orderedInsert (· ≤ ·) v).Sorted (· < ·) := by
  induction vs with
  | nil => simp [List.orderedInsert]
  | cons a l ih =>
    rw [List.sorted_cons] at hs
    by_cases hva : v ≤ a
    · have hlt : v < a := lt_of_le_of_ne hva (fun he => hv (he ▸ List.mem_cons_self a l))
      simp only [List.orderedInsert, if_pos hva]
      rw [List.sorted_cons]
      refine ⟨?_, by rw [List.sorted_cons]; exact hs⟩
      intro b hb
      rcases List.mem_cons.mp hb with rfl | hbl
      · exact hlt
      · exact hlt.trans (hs.1 b hbl)
    · simp only [List.orderedInsert, if_neg hva]
      rw [List.sorted_cons]
      constructor
      · intro b hb
        rcases (List.mem_orderedInsert _).mp hb with rfl | hbl
        · exact not_le.mp hva
        · exact hs.1 b hbl
      · exact ih hs.2 (fun hmem => hv (List.mem_cons_of_mem a hmem))

/-- The head of a strictly sorted list is its minimum. -/
theorem sorted_head_le {T : Type} [LinearOrder T] (l : List T) (a : T)
    (hs : l.Sorted (· < ·)) (hh : l.head? = some a) : ∀ y ∈ l, a ≤ y := by
  cases l with
  | nil => cases hh
  | cons b t =>
    injection hh with hba
    subst hba
    rw [List.sorted_cons] at hs
    intro y hy
    rcases List.mem_cons.mp hy with rfl | hyt
    · exact le_refl y
    · exact (hs.1 y hyt).le

/-- Ordered insertion above the head keeps the head. -/
theorem orderedInsert_cons_of_lt {T : Type} [LinearOrder T] (a v : T) (l : List T) (h : a < v) :
    (a :: l).orderedInsert (· ≤ ·) v = a :: l.orderedInsert (· ≤ ·) v := by
  simp [List.orderedInsert, not_le_of_lt h]

/-- Under the structural invariant an internal node has either exactly two
children and one key or exactly three children and two keys. -/
theorem structShape {T : Type} [LinearOrder T] (cs : List (BTreeNode T)) (ks : List T) (n : Nat)
    (h : StructInv (.subtree cs ks n)) :
    (∃ c0 c1 k0, cs = [c0, c1] ∧ ks = [k0]) ∨
    (∃ c0 c1 c2 k0 k1, cs = [c0, c1, c2] ∧ ks = [k0, k1]) := by
  simp only [StructInv] at h
  obtain ⟨hge, hle, hlen, -⟩ := h
  have hcs : cs.length = 2 ∨ cs.length = 3 := by omega
  rcases hcs with h2 | h3
  · obtain ⟨c0, c1, rfl⟩ := List.length_eq_two.mp h2
    have hks : ks.length = 1 := by simp at hlen; omega
    obtain ⟨k0, rfl⟩ := List.length_eq_one.mp hks
    exact Or.inl ⟨c0, c1, k0, rfl, rfl⟩
  · obtain ⟨c0, c1, c2, rfl⟩ := List.length_eq_three.mp h3
    have hks : ks.length = 2 := by simp at hlen; omega
    obtain ⟨k0, k1, rfl⟩ := List.length_eq_two.mp hks
    exact Or.inr ⟨c0, c1, c2, k0, k1, rfl, rfl⟩

/-- The leaf chain flattens to the value sequence (list version). -/
theorem flattenLeavesL {T : Type} (cs : List (BTreeNode T))
    (ih : ∀ c ∈ cs, (leavesList c).flatten = vals c) :
    (leavesListL cs).flatten = valsL cs := by
  induction cs with
  | nil => simp [leavesListL, valsL]
  | cons c cs ihl =>
    simp only [leavesListL, valsL, List.flatten_append]
    rw [ih c (by simp), ihl (fun c2 hc2 => ih c2 (by simp [hc2]))]

/-- The leaf chain flattens to the value sequence. -/
theorem flattenLeaves {T : Type} : ∀ t : BTreeNode T, (leavesList t).flatten = vals t := by
  intro t
  induction t using nodeInd with
  | hleaf vs => simp [leavesList, vals]
  | hsub cs ks n ih => simp only [leavesList, vals]; exact flattenLeavesL cs ih

/-- Under the structural invariant every value sequence length agrees with the
cached count (list version). -/
theorem valsLenL {T : Type} [LinearOrder T] (cs : List (BTreeNode T)) (hs : StructInvL cs)
    (ih : ∀ c ∈ cs, StructInv c → (vals c).length = valuesNumber c) :
    (valsL cs).length = (cs.map valuesNumber).sum := by
  induction cs with
  | nil => simp [valsL]
  | cons c cs ihl =>
    simp only [StructInvL] at hs
    simp only [valsL, List.length_append, List.map_cons, List.sum_cons]
    rw [ih c (by simp) hs.1, ihl hs.2 (fun c2 hc2 hsc2 => ih c2 (by simp [hc2]) hsc2)]

/-- Under the structural invariant the cached count of a node is the number of
stored values. -/
theorem valsLen {T : Type} [LinearOrder T] :
    ∀ t : BTreeNode T, StructInv t → (vals t).length = valuesNumber t := by
  intro t
  induction t using nodeInd with
  | hleaf vs => intro _; simp [vals, valuesNumber]
  | hsub cs ks n ih =>
    intro hs
    have hsl : StructInvL cs ∧ n = (cs.map valuesNumber).sum := by
      simp only [StructInv] at hs
      exact ⟨hs.2.2.2.2.2, hs.2.2.2.2.1⟩
    simp only [vals, valuesNumber]
    rw [valsLenL cs hsl.1 ih, hsl.2]

/-- Under the structural invariant every leaf of the chain is nonempty and
weakly sorted (list version). -/
theorem leavesOkL {T : Type} [LinearOrder T] (cs : List (BTreeNode T)) (hs : StructInvL cs)
    (ih : ∀ c ∈ cs, StructInv c → ∀ L ∈ leavesList c, L ≠ [] ∧ L.Sorted (· ≤ ·)) :
    ∀ L ∈ leavesListL cs, L ≠ [] ∧ L.Sorted (· ≤ ·) := by
  induction cs with
  | nil => simp [leavesListL]
  | cons c cs ihl =>
    simp only [StructInvL] at hs
    intro L hL
    simp only [leavesListL, List.mem_append] at hL
    rcases hL with hL | hL
    · exact ih c (by simp) hs.1 L hL
    · exact ihl hs.2 (fun c2 hc2 => ih c2 (by simp [hc2])) L hL

/-- Under the structural invariant every leaf of the chain is nonempty and
weakly sorted. -/
theorem leavesOk {T : Type} [LinearOrder T] :
    ∀ t : BTreeNode T, StructInv t → ∀ L ∈ leavesList t, L ≠ [] ∧ L.Sorted (· ≤ ·) := by
  intro t
  induction t using nodeInd with
  | hleaf vs =>
    intro hs L hL
    simp only [StructInv] at hs
    simp only [leavesList, List.mem_singleton] at hL
    subst hL
    refine ⟨fun he => ?_, hs.2.2⟩
    rw [he] at hs
    simp at hs
  | hsub cs ks n ih =>
    intro hs
    have hsl : StructInvL cs := by simp only [StructInv] at hs; exact hs.2.2.2.2.2
    simp only [leavesList]
    exact leavesOkL cs hsl ih

/-- Under the structural invariant a node stores at least one value. -/
theorem vals_ne_nil {T : Type} [LinearOrder T] :
    ∀ t : BTreeNode T, StructInv t → vals t ≠ [] := by
  intro t
  induction t using nodeInd with
  | hleaf vs =>
    intro hs he
    simp only [StructInv] at hs
    simp only [vals] at he
    rw [he] at hs
    simp at hs
  | hsub cs ks n ih =>
    intro hs he
    have hsl : StructInvL cs := by simp only [StructInv] at hs; exact hs.2.2.2.2.2
    rcases structShape cs ks n hs with ⟨c0, c1, k0, rfl, rfl⟩ | ⟨c0, c1, c2, k0, k1, rfl, rfl⟩ <;>
    · simp only [StructInvL] at hsl
      simp only [vals, valsL, List.append_eq_nil] at he
      exact ih c0 (by simp) hsl.1 he.1

/-- Gluing lemma: a concatenation is strictly sorted when both parts are and
every element of the left part is strictly below every element of the right
part. -/
theorem sorted_glue {T : Type} [LinearOrder T] (l1 l2 : List T)
    (h1 : l1.Sorted (· < ·)) (h2 : l2.Sorted (· < ·))
    (hx : ∀ x ∈ l1, ∀ y ∈ l2, x < y) : (l1 ++ l2).Sorted (· < ·) := by
  rw [List.Sorted, List.pairwise_append]
  exact ⟨h1, h2, hx⟩

/-- Under both invariants, the stored value sequence of a duplicate-free tree
is strictly sorted. -/
theorem vals_sorted_lt {T : Type} [LinearOrder T] :
    ∀ t : BTreeNode T, StructInv t → OrdInv t → (vals t).Sorted (· < ·) := by
  intro t
  induction t using nodeInd with
  | hleaf vs => intro _ ho; simp only [OrdInv] at ho; simpa [vals] using ho
  | hsub cs ks n ih =>
    intro hs ho
    have hsl : StructInvL cs := by simp only [StructInv] at hs; exact hs.2.2.2.2.2
    have hol : OrdInvL cs ∧ SepOK cs ks := by simp only [OrdInv] at ho; exact ho
    rcases structShape cs ks n hs with ⟨c0, c1, k0, rfl, rfl⟩ | ⟨c0, c1, c2, k0, k1, rfl, rfl⟩
    · simp only [StructInvL] at hsl
      simp only [OrdInvL] at hol
      have hsep : belowAll (vals c0) k0 ∧ (vals c1).head? = some k0 := by
        simpa [SepOK] using hol.2
      have s0 := ih c0 (by simp) hsl.1 hol.1.1
      have s1 := ih c1 (by simp) hsl.2.1 hol.1.2.1
      have hmin := sorted_head_le (vals c1) k0 s1 hsep.2
      simp only [vals, valsL, List.append_nil]
      exact sorted_glue _ _ s0 s1
        (fun x hx y hy => lt_of_lt_of_le (hsep.1 x hx) (hmin y hy))
    · simp only [StructInvL] at hsl
      simp only [OrdInvL] at hol
      have hsep : belowAll (vals c0) k0 ∧ (vals c1).head? = some k0 ∧
          belowAll (vals c1) k1 ∧ (vals c2).head? = some k1 := by
        simpa [SepOK] using hol.2
      have s0 := ih c0 (by simp) hsl.1 hol.1.1
      have s1 := ih c1 (by simp) hsl.2.1 hol.1.2.1
      have s2 := ih c2 (by simp) hsl.2.2.1 hol.1.2.2.1
      have hmin1 := sorted_head_le (vals c1) k0 s1 hsep.2.1
      have hmin2 := sorted_head_le (vals c2) k1 s2 hsep.2.2.2
      have hk01 : k0 < k1 := hsep.2.2.1 k0 (List.mem_of_mem_head? hsep.2.1)
      simp only [vals, valsL, List.append_nil]
      refine sorted_glue _ _ s0 (sorted_glue _ _ s1 s2 ?_) ?_
      · exact fun x hx y hy => lt_of_lt_of_le (hsep.2.2.1 x hx) (hmin2 y hy)
      · intro x hx y hy
        rcases List.mem_append.mp hy with hy1 | hy2
        · exact lt_of_lt_of_le (hsep.1 x hx) (hmin1 y hy1)
        · exact lt_of_lt_of_le ((hsep.1 x hx).trans hk01) (hmin2 y hy2)

/-- Length of an insertion sort. -/
theorem insertionSort_length {T : Type} [LinearOrder T] (l : List T) :
    (List.insertionSort (· ≤ ·) l).length = l.length :=
  (List.perm_insertionSort _ _).length_eq

/-- `valuesNumber` on a leaf. -/
theorem valuesNumber_leaf {T : Type} (vs : List T) : valuesNumber (.leaf vs) = vs.length := rfl

/-- `valuesNumber` on an internal node. -/
theorem valuesNumber_subtree {T : Type} (cs : List (BTreeNode T)) (ks : List T) (n : Nat) :
    valuesNumber (.subtree cs ks n) = n := rfl

/-- Specification of one `insertNode` step for the structural invariant: the
result satisfies the invariant and accounts for exactly one more value. -/
def resSpecS {T : Type} [LinearOrder T] (m : Nat) : InsRes T → Prop
  | .one t2 => StructInv t2 ∧ valuesNumber t2 = m + 1
  | .split l _ r => StructInv l ∧ StructInv r ∧ valuesNumber l + valuesNumber r = m + 1

/-- Unfolding lemma: insertion into an internal node whose chosen child did
not split. -/
theorem insertNode_sub_one {T : Type} [LinearOrder T] {cs : List (BTreeNode T)} {ks : List T}
    {n : Nat} {v : T} {i : Nat} {c2 : BTreeNode T}
    (hi : getChildrenIndexByValue ks v = i) (hres : childIns cs i v = some (.one c2)) :
    insertNode (.subtree cs ks n) v =
      .one (.subtree (cs.take i ++ [c2] ++ cs.drop (i+1)) ks (n+1)) := by
  simp only [insertNode, hi, hres]

/-- Unfolding lemma: insertion into an internal node whose chosen child split
while the node still has room for the promoted key. -/
theorem insertNode_sub_split_small {T : Type} [LinearOrder T] {cs : List (BTreeNode T)}
    {ks : List T} {n : Nat} {v : T} {i : Nat} {l r : BTreeNode T} {k : T}
    (hi : getChildrenIndexByValue ks v = i) (hres : childIns cs i v = some (.split l k r))
    (hlen : (List.insertionSort (· ≤ ·) (ks ++ [k])).length ≤ MAX_KEYS) :
    insertNode (.subtree cs ks n) v =
      .one (.subtree (cs.take i ++ [l, r] ++ cs.drop (i+1))
        (List.insertionSort (· ≤ ·) (ks ++ [k])) (n+1)) := by
  simp only [insertNode, hi, hres, if_pos hlen]

/-- Unfolding lemma: insertion into an internal node whose chosen child split
and the promoted key overflows the node, so the node splits as well. -/
theorem insertNode_sub_split_big {T : Type} [LinearOrder T] {cs : List (BTreeNode T)}
    {ks : List T} {n : Nat} {v : T} {i : Nat} {l r : BTreeNode T} {k : T}
    (hi : getChildrenIndexByValue ks v = i) (hres : childIns cs i v = some (.split l k r))
    (hlen : ¬ (List.insertionSort (· ≤ ·) (ks ++ [k])).length ≤ MAX_KEYS) :
    insertNode (.subtree cs ks n) v =
      .split (subtreeNew ((cs.take i ++ [l, r] ++ cs.drop (i+1)).take 2)
          ((List.insertionSort (· ≤ ·) (ks ++ [k])).take 1))
        ((List.insertionSort (· ≤ ·) (ks ++ [k])).getD 1 k)
        (subtreeNew ((cs.take i ++ [l, r] ++ cs.drop (i+1)).drop 2)
          ((List.insertionSort (· ≤ ·) (ks ++ [k])).drop 2)) := by
  simp only [insertNode, hi, hres, if_neg hlen]

/-- Theorem A: on a structurally valid node, `insertNode` preserves the
structural invariant and adds exactly one value (split results are accounted
jointly). -/
theorem insertNode_spec {T : Type} [LinearOrder T] (v : T) :
    ∀ t : BTreeNode T, StructInv t → resSpecS (valuesNumber t) (insertNode t v) := by
  have hmk : MAX_KEYS = 2 := rfl
  intro t
  induction t using nodeInd with
  | hleaf vs =>
    intro hs
    simp only [StructInv] at hs
    obtain ⟨h1, h2, hsort⟩ := hs
    simp only [insertNode]
    have hlen : (List.insertionSort (· ≤ ·) (vs ++ [v])).length = vs.length + 1 := by
      rw [insertionSort_length]; simp
    have hsorted := List.sorted_insertionSort (· ≤ ·) (vs ++ [v])
    by_cases hle : (List.insertionSort (· ≤ ·) (vs ++ [v])).length ≤ MAX_KEYS
    · simp only [if_pos hle]
      simp only [resSpecS, StructInv, valuesNumber]
      exact ⟨⟨by omega, by omega, hsorted⟩, by omega⟩
    · simp only [if_neg hle]
      simp only [resSpecS, StructInv, valuesNumber]
      have h3 : (List.insertionSort (· ≤ ·) (vs ++ [v])).length = 3 := by omega
      refine ⟨⟨?_, ?_, ?_⟩, ⟨?_, ?_, ?_⟩, ?_⟩
      · simp [List.length_take, h3]
      · simp [List.length_take, h3]
      · exact hsorted.sublist (List.take_sublist _ _)
      · simp [List.length_drop, h3]
      · simp [List.length_drop, h3, hmk]
      · exact hsorted.sublist (List.drop_sublist _ _)
      · simp only [List.length_take, List.length_drop, h3]
        omega
  | hsub cs ks n ih =>
    intro hs
    have hkeys : ks.Sorted (· ≤ ·) := by simp only [StructInv] at hs; exact hs.2.2.2.1
    have hsl : StructInvL cs := by simp only [StructInv] at hs; exact hs.2.2.2.2.2
    have hn : n = (cs.map valuesNumber).sum := by simp only [StructInv] at hs; exact hs.2.2.2.2.1
    rcases structShape cs ks n hs with ⟨c0, c1, k0, rfl, rfl⟩ | ⟨c0, c1, c2, k0, k1, rfl, rfl⟩
    · simp only [StructInvL] at hsl
      obtain ⟨hs0, hs1, -⟩ := hsl
      simp only [List.map_cons, List.map_nil, List.sum_cons, List.sum_nil] at hn
      have hvn : valuesNumber (BTreeNode.subtree [c0, c1] [k0] n) = n := rfl
      rw [hvn]
      by_cases hv : v < k0
      case pos =>
        have hi : getChildrenIndexByValue [k0] v = 0 := by simp [getChildrenIndexByValue, hv]
        have ih0 := ih c0 (by simp) hs0
        rcases hres : insertNode c0 v with c_2 | ⟨l, k, r⟩ <;> rw [hres] at ih0
        · have hci : childIns [c0, c1] 0 v = some (InsRes.one c_2) := by
            simp only [childIns]; rw [hres]
          rw [insertNode_sub_one hi hci]
          obtain ⟨hc2, hcnt⟩ := ih0
          refine ⟨?_, rfl⟩
          simp only [StructInv, StructInvL]
          refine ⟨by simp, by simp, by simp, hkeys, ?_, hc2, hs1, trivial⟩
          simp only [List.take, List.drop, List.cons_append, List.nil_append,
            List.map_cons, List.map_nil, List.sum_cons, List.sum_nil]
          omega
        · obtain ⟨hl, hr, hcnt⟩ := ih0
          have hci : childIns [c0, c1] 0 v = some (InsRes.split l k r) := by
            simp only [childIns]; rw [hres]
          rw [insertNode_sub_split_small hi hci
            (by rw [insertionSort_length]; simp [hmk])]
          refine ⟨?_, rfl⟩
          simp only [StructInv, StructInvL]
          refine ⟨by simp, by simp, ?_, List.sorted_insertionSort _ _, ?_, hl, hr, hs1, trivial⟩
          · rw [insertionSort_length]; simp
          · simp only [List.take, List.drop, List.cons_append, List.nil_append,
              List.map_cons, List.map_nil, List.sum_cons, List.sum_nil]
            omega
      case neg =>
        have hi : getChildrenIndexByValue [k0] v = 1 := by simp [getChildrenIndexByValue, hv]
        have ih1 := ih c1 (by simp) hs1
        rcases hres : insertNode c1 v with c_2 | ⟨l, k, r⟩ <;> rw [hres] at ih1
        · have hci : childIns [c0, c1] 1 v = some (InsRes.one c_2) := by
            simp only [childIns]; rw [hres]
          rw [insertNode_sub_one hi hci]
          obtain ⟨hc2, hcnt⟩ := ih1
          refine ⟨?_, rfl⟩
          simp only [StructInv, StructInvL]
          refine ⟨by simp, by simp, by simp, hkeys, ?_, hs0, hc2, trivial⟩
          simp only [List.take, List.drop, List.cons_append, List.nil_append,
            List.map_cons, List.map_nil, List.sum_cons, List.sum_nil]
          omega
        · obtain ⟨hl, hr, hcnt⟩ := ih1
          have hci : childIns [c0, c1] 1 v = some (InsRes.split l k r) := by
            simp only [childIns]; rw [hres]
          rw [insertNode_sub_split_small hi hci
            (by rw [insertionSort_length]; simp [hmk])]
          refine ⟨?_, rfl⟩
          simp only [StructInv, StructInvL]
          refine ⟨by simp, by simp, ?_, List.sorted_insertionSort _ _, ?_, hs0, hl, hr, trivial⟩
          · rw [insertionSort_length]; simp
          · simp only [List.take, List.drop, List.cons_append, List.nil_append,
              List.map_cons, List.map_nil, List.sum_cons, List.sum_nil]
            omega
    · simp only [StructInvL] at hsl
      obtain ⟨hs0, hs1, hs2, -⟩ := hsl
      simp only [List.map_cons, List.map_nil, List.sum_cons, List.sum_nil] at hn
      have hvn : valuesNumber (BTreeNode.subtree [c0, c1, c2] [k0, k1] n) = n := rfl
      rw [hvn]
      have hone : ∀ (i : Nat) (c_2 d0 d1 d2 : BTreeNode T),
          getChildrenIndexByValue [k0, k1] v = i →
          childIns [c0, c1, c2] i v = some (InsRes.one c_2) →
          [c0, c1, c2].take i ++ [c_2] ++ [c0, c1, c2].drop (i+1) = [d0, d1, d2] →
          StructInv d0 → StructInv d1 → StructInv d2 →
          n + 1 = valuesNumber d0 + (valuesNumber d1 + (valuesNumber d2 + 0)) →
          resSpecS n (insertNode (BTreeNode.subtree [c0, c1, c2] [k0, k1] n) v) := by
        intro i c_2 d0 d1 d2 hi hci hperm hsA hsB hsC hcount
        rw [insertNode_sub_one hi hci, hperm]
        refine ⟨?_, rfl⟩
        simp only [StructInv, StructInvL]
        refine ⟨by simp, by simp, by simp, hkeys, ?_, hsA, hsB, hsC, trivial⟩
        simp only [List.map_cons, List.map_nil, List.sum_cons, List.sum_nil]
        omega
      by_cases hv0 : v < k0
      case pos =>
        have hi : getChildrenIndexByValue [k0, k1] v = 0 := by
          simp [getChildrenIndexByValue, hv0]
        have ih0 := ih c0 (by simp) hs0
        rcases hres : insertNode c0 v with c_2 | ⟨l, k, r⟩ <;> rw [hres] at ih0
        · exact hone 0 c_2 c_2 c1 c2 hi (by simp only [childIns]; rw [hres]) rfl ih0.1 hs1 hs2
            (by have := ih0.2; omega)
        · obtain ⟨hl, hr, hcnt⟩ := ih0
          have hci : childIns [c0, c1, c2] 0 v = some (InsRes.split l k r) := by
            simp only [childIns]; rw [hres]
          have hks2 : (List.insertionSort (· ≤ ·) ([k0, k1] ++ [k])).length = 3 := by
            rw [insertionSort_length]; simp
          rw [insertNode_sub_split_big hi hci (by omega)]
          have e1 : [c0, c1, c2].take 0 ++ [l, r] ++ [c0, c1, c2].drop 1 = [l, r, c1, c2] := rfl
          rw [e1]
          have e2 : List.take 2 [l, r, c1, c2] = [l, r] := rfl
          have e3 : List.drop 2 [l, r, c1, c2] = [c1, c2] := rfl
          rw [e2, e3]
          have hsorted := List.sorted_insertionSort (· ≤ ·) ([k0, k1] ++ [k])
          refine ⟨?_, ?_, ?_⟩
          · simp only [subtreeNew, StructInv, StructInvL]
            refine ⟨by simp, by simp, by simp only [List.length_take, hks2, List.length_cons, List.length_nil]; try decide,
              hsorted.sublist (List.take_sublist _ _), by trivial, hl, hr, trivial⟩
          · simp only [subtreeNew, StructInv, StructInvL]
            refine ⟨by simp, by simp, by simp only [List.length_drop, hks2, List.length_cons, List.length_nil]; try decide,
              hsorted.sublist (List.drop_sublist _ _), by trivial, hs1, hs2, trivial⟩
          · simp only [subtreeNew, valuesNumber_subtree, List.map_cons, List.map_nil,
              List.sum_cons, List.sum_nil]
            omega
      case neg =>
        by_cases hv1 : k0 < v ∧ v < k1
        case pos =>
          have hi : getChildrenIndexByValue [k0, k1] v = 1 := by
            simp [getChildrenIndexByValue, hv0, hv1]
          have ih1 := ih c1 (by simp) hs1
          rcases hres : insertNode c1 v with c_2 | ⟨l, k, r⟩ <;> rw [hres] at ih1
          · exact hone 1 c_2 c0 c_2 c2 hi (by simp only [childIns]; rw [hres]) rfl hs0 ih1.1 hs2
              (by have := ih1.2; omega)
          · obtain ⟨hl, hr, hcnt⟩ := ih1
            have hci : childIns [c0, c1, c2] 1 v = some (InsRes.split l k r) := by
              simp only [childIns]; rw [hres]
            have hks2 : (List.insertionSort (· ≤ ·) ([k0, k1] ++ [k])).length = 3 := by
              rw [insertionSort_length]; simp
            rw [insertNode_sub_split_big hi hci (by omega)]
            have e1 : [c0, c1, c2].take 1 ++ [l, r] ++ [c0, c1, c2].drop 2 = [c0, l, r, c2] := rfl
            rw [e1]
            have e2 : List.take 2 [c0, l, r, c2] = [c0, l] := rfl
            have e3 : List.drop 2 [c0, l, r, c2] = [r, c2] := rfl
            rw [e2, e3]
            have hsorted := List.sorted_insertionSort (· ≤ ·) ([k0, k1] ++ [k])
            refine ⟨?_, ?_, ?_⟩
            · simp only [subtreeNew, StructInv, StructInvL]
              refine ⟨by simp, by simp, by simp only [List.length_take, hks2, List.length_cons, List.length_nil]; try decide,
                hsorted.sublist (List.take_sublist _ _), by trivial, hs0, hl, trivial⟩
            · simp only [subtreeNew, StructInv, StructInvL]
              refine ⟨by simp, by simp, by simp only [List.length_drop, hks2, List.length_cons, List.length_nil]; try decide,
                hsorted.sublist (List.drop_sublist _ _), by trivial, hr, hs2, trivial⟩
            · simp only [subtreeNew, valuesNumber_subtree, List.map_cons, List.map_nil,
                List.sum_cons, List.sum_nil]
              omega
        case neg =>
          have hi : getChildrenIndexByValue [k0, k1] v = 2 := by
            simp [getChildrenIndexByValue, hv0, hv1]
          have ih2 := ih c2 (by simp) hs2
          rcases hres : insertNode c2 v with c_2 | ⟨l, k, r⟩ <;> rw [hres] at ih2
          · exact hone 2 c_2 c0 c1 c_2 hi (by simp only [childIns]; rw [hres]) rfl hs0 hs1 ih2.1
              (by have := ih2.2; omega)
          · obtain ⟨hl, hr, hcnt⟩ := ih2
            have hci : childIns [c0, c1, c2] 2 v = some (InsRes.split l k r) := by
              simp only [childIns]; rw [hres]
            have hks2 : (List.insertionSort (· ≤ ·) ([k0, k1] ++ [k])).length = 3 := by
              rw [insertionSort_length]; simp
            rw [insertNode_sub_split_big hi hci (by omega)]
            have e1 : [c0, c1, c2].take 2 ++ [l, r] ++ [c0, c1, c2].drop 3 = [c0, c1, l, r] := rfl
            rw [e1]
            have e2 : List.take 2 [c0, c1, l, r] = [c0, c1] := rfl
            have e3 : List.drop 2 [c0, c1, l, r] = [l, r] := rfl
            rw [e2, e3]
            have hsorted := List.sorted_insertionSort (· ≤ ·) ([k0, k1] ++ [k])
            refine ⟨?_, ?_, ?_⟩
            · simp only [subtreeNew, StructInv, StructInvL]
              refine ⟨by simp, by simp, by simp only [List.length_take, hks2, List.length_cons, List.length_nil]; try decide,
                hsorted.sublist (List.take_sublist _ _), by trivial, hs0, hs1, trivial⟩
            · simp only [subtreeNew, StructInv, StructInvL]
              refine ⟨by simp, by simp, by simp only [List.length_drop, hks2, List.length_cons, List.length_nil]; try decide,
                hsorted.sublist (List.drop_sublist _ _), by trivial, hl, hr, trivial⟩
            · simp only [subtreeNew, valuesNumber_subtree, List.map_cons, List.map_nil,
                List.sum_cons, List.sum_nil]
              omega

/-- Invariant of a tree handle: the root, when present, is structurally
valid. -/
def BTree.Inv {T : Type} [LinearOrder T] (t : BTree T) : Prop :=
  ∀ r, t.root = some r → StructInv r

/-- `BTree.insert` preserves the structural invariant and increases `len` by
exactly one. -/
theorem insert_inv {T : Type} [LinearOrder T] (t : BTree T) (v : T) (h : t.Inv) :
    (t.insert v).Inv ∧ (t.insert v).len = t.len + 1 := by
  cases t with | mk root =>
  cases root with
  | none =>
    constructor
    · intro r hr
      simp only [BTree.insert] at hr
      injection hr with hr
      subst hr
      simp only [StructInv]
      exact ⟨by simp, by simp, by simp⟩
    · rfl
  | some r =>
    have hs := h r rfl
    have hspec := insertNode_spec v r hs
    simp only [BTree.insert]
    rcases hres : insertNode r v with r2 | ⟨l, k, rr⟩ <;> rw [hres] at hspec
    · constructor
      · intro x hx
        injection hx with hx
        subst hx
        exact hspec.1
      · show valuesNumber r2 = valuesNumber r + 1
        exact hspec.2
    · constructor
      · intro x hx
        injection hx with hx
        subst hx
        simp only [newRootAfterDivision, subtreeNew, StructInv, StructInvL]
        exact ⟨by simp, by simp, by simp, by simp, by trivial, hspec.1, hspec.2.1, trivial⟩
      · show valuesNumber (newRootAfterDivision l rr k) = valuesNumber r + 1
        simp only [newRootAfterDivision, subtreeNew, valuesNumber_subtree, List.map_cons,
          List.map_nil, List.sum_cons, List.sum_nil]
        have := hspec.2.2
        omega

/-- `BTree.extend` preserves the structural invariant and adds the length of
the inserted sequence to `len`. -/
theorem extend_inv {T : Type} [LinearOrder T] :
    ∀ (l : List T) (t : BTree T), t.Inv →
      (t.extend l).Inv ∧ (t.extend l).len = t.len + l.length := by
  intro l
  induction l with
  | nil => intro t h; exact ⟨h, by simp [BTree.extend]⟩
  | cons v l ihl =>
    intro t h
    have h1 := insert_inv t v h
    have h2 := ihl (t.insert v) h1.1
    have he : t.extend (v :: l) = (t.insert v).extend l := rfl
    rw [he]
    refine ⟨h2.1, ?_⟩
    rw [h2.2, h1.2]
    simp only [List.length_cons]
    omega

/-- Every tree built through the public API satisfies the structural
invariant. -/
theorem fromList_inv {T : Type} [LinearOrder T] (l : List T) : (BTree.fromList l).Inv :=
  (extend_inv l BTree.new (fun r hr => by cases hr)).1

/-- C8: after every completed sequence of public insertions, every leaf holds
1-2 values sorted ascending, every internal node has 2-3 children and exactly
`children - 1` separator keys sorted ascending, and every internal node's
cached count equals the sum of its children's counts, recursively down to leaf
cardinalities (all of this is `StructInv`). -/
theorem c8_theorem {T : Type} [LinearOrder T] (l : List T) (r : BTreeNode T)
    (h : (BTree.fromList l).root = some r) : StructInv r :=
  fromList_inv l r h

/-- C8, witness at the tree built from `0,1,2,3`. -/
theorem c8_witness :
    StructInv (BTreeNode.subtree [.leaf [(0 : Int)], .leaf [1], .leaf [2, 3]] [1, 2] 4) := by
  have h : BTree.fromList ([0, 1, 2, 3] : List Int) =
      ⟨some (.subtree [.leaf [0], .leaf [1], .leaf [2, 3]] [1, 2] 4)⟩ := rfl
  exact c8_theorem [0, 1, 2, 3] _ (by rw [h])

/-- C5: `insert` is total and increases the logical size by exactly one on
every reachable tree state, and bulk construction of any finite sequence gives
`len` equal to the number of insertions. -/
theorem c5_theorem {T : Type} [LinearOrder T] :
    (∀ (l : List T) (v : T), ((BTree.fromList l).insert v).len = (BTree.fromList l).len + 1) ∧
    (∀ l : List T, (BTree.fromList l).len = l.length) := by
  constructor
  · intro l v
    exact (insert_inv (BTree.fromList l) v (fromList_inv l)).2
  · intro l
    have := (extend_inv l BTree.new (fun r hr => by cases hr)).2
    simpa [BTree.fromList, BTree.len, BTree.new] using this

/-- A cursor with no current leaf yields nothing forward. -/
theorem forwardN_nil {T : Type} (fuel : Nat) (bf : List (List T)) (j : Nat) :
    forwardN fuel ⟨bf, [], j⟩ = [] := by
  cases fuel <;> simp [forwardN, BTreeIter.next]

/-- Fuelled forward iteration from a position inside the chain produces the
rest of the current leaf followed by all following leaves. -/
theorem forwardN_go {T : Type} : ∀ (fuel : Nat) (bf : List (List T)) (c : List T)
    (cs : List (List T)) (i : Nat), i < c.length → (∀ L ∈ cs, L ≠ []) →
    c.length - i + (cs.map List.length).sum < fuel →
    forwardN fuel ⟨bf, c :: cs, i⟩ = c.drop i ++ cs.flatten := by
  intro fuel
  induction fuel with
  | zero => intro bf c cs i hi hne hf; omega
  | succ fuel ihf =>
    intro bf c cs i hi hne hf
    simp only [forwardN, BTreeIter.next]
    rw [(List.getElem?_eq_some_getElem_iff c i hi).mpr trivial]
    by_cases hadv : i + 1 < c.length
    · simp only [if_pos hadv]
      rw [ihf bf c cs (i+1) hadv hne (by omega)]
      rw [← List.get_drop_eq_drop c i hi]
      rfl
    · simp only [if_neg hadv]
      cases cs with
      | nil =>
        rw [forwardN_nil]
        rw [← List.get_drop_eq_drop c i hi]
        have hdrop : c.drop (i + 1) = [] := by
          apply List.drop_eq_nil_of_le
          omega
        simp [hdrop]
      | cons c2 cs2 =>
        have hc2 : 0 < c2.length := by
          have := hne c2 (by simp)
          exact List.length_pos.mpr this
        have hsum : (cs2.map List.length).sum ≤ ((c2 :: cs2).map List.length).sum := by
          simp
        rw [ihf (c :: bf) c2 cs2 0 hc2 (fun L hL => hne L (by simp [hL])) ?hb]
        case hb =>
          simp only [List.map_cons, List.sum_cons] at hf ⊢
          omega
        rw [← List.get_drop_eq_drop c i hi]
        have hdrop : c.drop (i + 1) = [] := by
          apply List.drop_eq_nil_of_le
          omega
        simp [hdrop]

/-- The forward run of a cursor standing at offset 0 of the chain is the
concatenation of all its leaves (no leaf may be empty). -/
theorem forwardList_flatten {T : Type} (bf ls : List (List T)) (hne : ∀ L ∈ ls, L ≠ []) :
    forwardList ⟨bf, ls, 0⟩ = ls.flatten := by
  cases ls with
  | nil => simp [forwardList, forwardN_nil]
  | cons c cs =>
    have hc : 0 < c.length := List.length_pos.mpr (hne c (by simp))
    simp only [forwardList]
    rw [forwardN_go _ bf c cs 0 hc (fun L hL => hne L (by simp [hL])) ?hb]
    · simp
    case hb => simp only [List.map_cons, List.sum_cons]; omega

/-- A yielding forward step decreases the step bound. -/
theorem next_yield_bound {T : Type} (it it2 : BTreeIter T) (v : T)
    (h : it.next = .yielded v it2) : itBound it2 < itBound it := by
  obtain ⟨bf, rest, i⟩ := it
  cases rest with
  | nil => simp [BTreeIter.next] at h
  | cons c cs =>
    simp only [BTreeIter.next] at h
    rcases hget : getElem? c i with - | x
    · simp only [hget] at h
      exact StepResult.noConfusion h
    · simp only [hget] at h
      have hi : i < c.length := by
        by_contra hge
        rw [List.getElem?_eq_none (by omega)] at hget
        cases hget
      by_cases hadv : i + 1 < c.length
      · rw [if_pos hadv] at h
        injection h with h1 h2
        subst h2
        simp only [itBound]
        omega
      · rw [if_neg hadv] at h
        injection h with h1 h2
        subst h2
        cases cs with
        | nil => simp only [itBound]; omega
        | cons c2 cs2 =>
          simp only [itBound, List.map_cons, List.sum_cons]
          have : c2.length - 0 ≤ c2.length := by omega
          omega

/-- A non-yielding forward step happens exactly at bound-stable states;
`forwardN` is independent of the fuel once the fuel exceeds the bound. -/
theorem forwardN_stable {T : Type} :
    ∀ (n m : Nat) (it : BTreeIter T), itBound it < n → itBound it < m →
      forwardN n it = forwardN m it := by
  intro n
  induction n with
  | zero => intro m it h1 h2; omega
  | succ n ihn =>
    intro m it h1 h2
    cases m with
    | zero => omega
    | succ m =>
      simp only [forwardN]
      rcases hstep : it.next with - | - | ⟨v, it2⟩
      · rfl
      · rfl
      · have hb := next_yield_bound it it2 v hstep
        show v :: forwardN n it2 = v :: forwardN m it2
        rw [ihn m it2 (by omega) (by omega)]

/-- The step bound is below the fuel used by `forwardList`. -/
theorem itBound_lt_fuel {T : Type} (it : BTreeIter T) :
    itBound it < (it.rest.map List.length).sum + 1 := by
  obtain ⟨bf, rest, i⟩ := it
  cases rest with
  | nil => simp [itBound]
  | cons c cs => simp only [itBound, List.map_cons, List.sum_cons]; omega

/-- Certification: `forwardList` is the iteration of `BTreeIter.next` — a
yielding step prepends its value. -/
theorem forwardList_yield {T : Type} (it it2 : BTreeIter T) (v : T)
    (h : it.next = .yielded v it2) : forwardList it = v :: forwardList it2 := by
  have hb := next_yield_bound it it2 v h
  have h1 := itBound_lt_fuel it
  have h2 := itBound_lt_fuel it2
  rw [forwardList, forwardN_stable _ (itBound it + 1) it h1 (by omega)]
  simp only [forwardN, h]
  rw [forwardList, forwardN_stable (itBound it) ((it2.rest.map List.length).sum + 1) it2
    (by omega) h2]

/-- Certification: `forwardList` is the iteration of `BTreeIter.next` — a
non-yielding step ends the run. -/
theorem forwardList_stop {T : Type} (it : BTreeIter T)
    (h : it.next = StepResult.exhausted ∨ it.next = StepResult.panicked) :
    forwardList it = [] := by
  rw [forwardList]
  rcases Nat.exists_eq_succ_of_ne_zero (n := (it.rest.map List.length).sum + 1)
      (by omega) with ⟨m, hm⟩
  rw [hm]
  simp only [forwardN]
  rcases h with h | h <;> rw [h]

/-- The stored values of a 2-child internal node. -/
theorem vals_sub2 {T : Type} (a b : BTreeNode T) (ks : List T) (n : Nat) :
    vals (.subtree [a, b] ks n) = vals a ++ vals b := by
  simp [vals, valsL]

/-- The stored values of a 3-child internal node. -/
theorem vals_sub3 {T : Type} (a b c : BTreeNode T) (ks : List T) (n : Nat) :
    vals (.subtree [a, b, c] ks n) = vals a ++ (vals b ++ vals c) := by
  simp [vals, valsL]

/-- Specification of one `insertNode` step for the ordering invariant of
duplicate-free trees: the result is ordered, and its value sequence is the
ordered insertion of the new value into the old sequence; a split additionally
exposes the promoted key as the least value of the right part. -/
def resSpecO {T : Type} [LinearOrder T] (t : BTreeNode T) (v : T) : InsRes T → Prop
  | .one t2 => OrdInv t2 ∧ vals t2 = (vals t).orderedInsert (· ≤ ·) v
  | .split l k r => OrdInv l ∧ OrdInv r ∧ belowAll (vals l) k ∧ (vals r).head? = some k ∧
      vals l ≠ [] ∧ vals l ++ vals r = (vals t).orderedInsert (· ≤ ·) v

/-- Theorem B: on a structurally valid, ordered tree, inserting a value not yet
stored produces an ordered result whose value sequence is the ordered insertion
of the value. -/
theorem insertNode_ord {T : Type} [LinearOrder T] (v : T) :
    ∀ t : BTreeNode T, StructInv t → OrdInv t → v ∉ vals t →
      resSpecO t v (insertNode t v) := by
  have hmk : MAX_KEYS = 2 := rfl
  intro t
  induction t using nodeInd with
  | hleaf vs =>
    intro hs ho hv
    simp only [StructInv] at hs
    simp only [OrdInv] at ho
    simp only [vals] at hv
    obtain ⟨h1, h2, hsort⟩ := hs
    simp only [insertNode]
    rw [sortPush vs v hsort]
    have hlen : ((vs.orderedInsert (· ≤ ·) v)).length = vs.length + 1 := by
      simpa using (List.perm_orderedInsert (· ≤ ·) v vs).length_eq
    have hsorted : (vs.orderedInsert (· ≤ ·) v).Sorted (· < ·) :=
      orderedInsert_sorted_lt vs v ho hv
    by_cases hle : (vs.orderedInsert (· ≤ ·) v).length ≤ MAX_KEYS
    · rw [if_pos hle]
      exact ⟨by simpa [OrdInv, vals] using hsorted, by simp [vals]⟩
    · rw [if_neg hle]
      have h3 : (vs.orderedInsert (· ≤ ·) v).length = 3 := by omega
      obtain ⟨a, b, c, habc⟩ := List.length_eq_three.mp h3
      rw [habc]
      rw [habc] at hsorted
      rw [List.sorted_cons, List.sorted_cons] at hsorted
      refine ⟨?_, ?_, ?_, ?_, ?_, ?_⟩
      · simp [OrdInv, vals]
      · simp only [OrdInv, vals]
        show List.Sorted (· < ·) [b, c]
        rw [List.sorted_cons]
        exact ⟨fun y hy => by simpa using hsorted.2.1 y hy, by simp⟩
      · intro x hx
        simp only [vals, List.take] at hx
        simp at hx
        subst hx
        exact hsorted.1 b (by simp)
      · rfl
      · simp [vals]
      · simp only [vals]
        rw [habc]
        rfl
  | hsub cs ks n ih =>
    intro hs ho hv
    have hsl : StructInvL cs := by simp only [StructInv] at hs; exact hs.2.2.2.2.2
    have holsep : OrdInvL cs ∧ SepOK cs ks := by simp only [OrdInv] at ho; exact ho
    rcases structShape cs ks n hs with ⟨c0, c1, k0, rfl, rfl⟩ | ⟨c0, c1, c2, k0, k1, rfl, rfl⟩
    · simp only [StructInvL] at hsl
      obtain ⟨hs0, hs1, -⟩ := hsl
      obtain ⟨hol, hsep⟩ := holsep
      simp only [OrdInvL] at hol
      obtain ⟨ho0, ho1, -⟩ := hol
      have hsep2 : belowAll (vals c0) k0 ∧ (vals c1).head? = some k0 := by
        simpa [SepOK] using hsep
      obtain ⟨hbel0, hhd1⟩ := hsep2
      have hvt : vals (BTreeNode.subtree [c0, c1] [k0] n) = vals c0 ++ vals c1 :=
        vals_sub2 c0 c1 [k0] n
      have hvm : v ∉ vals c0 ∧ v ∉ vals c1 := by
        rw [hvt] at hv; simp only [List.mem_append] at hv; exact ⟨fun h => hv (Or.inl h),
          fun h => hv (Or.inr h)⟩
      have s1 : (vals c1).Sorted (· < ·) := vals_sorted_lt c1 hs1 ho1
      have hge1 : ∀ y ∈ vals c1, k0 ≤ y := sorted_head_le _ k0 s1 hhd1
      have hk0mem : k0 ∈ vals c1 := List.mem_of_mem_head? hhd1
      by_cases hvlt : v < k0
      case pos =>
        have hi : getChildrenIndexByValue [k0] v = 0 := by simp [getChildrenIndexByValue, hvlt]
        have hall1 : ∀ y ∈ vals c1, v ≤ y := fun y hy => (lt_of_lt_of_le hvlt (hge1 y hy)).le
        have ih0 := ih c0 (by simp) hs0 ho0 hvm.1
        rcases hres : insertNode c0 v with c_2 | ⟨l, k, r⟩ <;> rw [hres] at ih0
        · obtain ⟨hoc2, hvc2⟩ := ih0
          have hci : childIns [c0, c1] 0 v = some (InsRes.one c_2) := by
            simp only [childIns]; rw [hres]
          rw [insertNode_sub_one hi hci]
          refine ⟨?_, ?_⟩
          · simp only [OrdInv, OrdInvL, SepOK, List.take, List.drop, List.cons_append,
              List.nil_append]
            refine ⟨⟨hoc2, ho1, trivial⟩, ?_, hhd1⟩
            intro x hx
            rw [hvc2] at hx
            rcases (List.mem_orderedInsert _).mp hx with rfl | hx2
            · exact hvlt
            · exact hbel0 x hx2
          · show vals (BTreeNode.subtree [c_2, c1] [k0] (n+1)) = _
            rw [vals_sub2, hvt, hvc2, orderedInsert_append_right v _ _ hall1]
        · obtain ⟨holx, horx, hbelk, hhdk, hlne, hvalx⟩ := ih0
          have helem : ∀ x ∈ vals l ++ vals r, x < k0 := by
            intro x hx
            rw [hvalx] at hx
            rcases (List.mem_orderedInsert _).mp hx with rfl | hx2
            · exact hvlt
            · exact hbel0 x hx2
          have hkmem : k ∈ vals l ++ vals r :=
            List.mem_append.mpr (Or.inr (List.mem_of_mem_head? hhdk))
          have hkk0 : k < k0 := helem k hkmem
          have hci : childIns [c0, c1] 0 v = some (InsRes.split l k r) := by
            simp only [childIns]; rw [hres]
          have hks2 : List.insertionSort (· ≤ ·) ([k0] ++ [k]) = [k, k0] := by
            rw [sortPush [k0] k (by simp)]
            simp [List.orderedInsert, hkk0.le]
          rw [insertNode_sub_split_small hi hci (by rw [hks2]; simp [hmk]), hks2]
          refine ⟨?_, ?_⟩
          · simp only [OrdInv, OrdInvL, SepOK, List.take, List.drop, List.cons_append,
              List.nil_append]
            refine ⟨⟨holx, horx, ho1, trivial⟩, hbelk, hhdk, ?_, hhd1⟩
            intro x hx
            exact helem x (List.mem_append.mpr (Or.inr hx))
          · show vals (BTreeNode.subtree [l, r, c1] [k, k0] (n+1)) = _
            rw [vals_sub3, hvt, ← List.append_assoc, hvalx,
              orderedInsert_append_right v _ _ hall1]
      case neg =>
        have hvk0 : k0 < v :=
          lt_of_le_of_ne (le_of_not_lt hvlt) (fun he => hvm.2 (he ▸ hk0mem))
        have hi : getChildrenIndexByValue [k0] v = 1 := by simp [getChildrenIndexByValue, hvlt]
        have hall0 : ∀ x ∈ vals c0, x < v := fun x hx => (hbel0 x hx).trans hvk0
        obtain ⟨c1tail, hc1eq⟩ := List.head?_eq_some_iff.mp hhd1
        have hoi1 : (vals c1).orderedInsert (· ≤ ·) v =
            k0 :: (c1tail.orderedInsert (· ≤ ·) v) := by
          rw [hc1eq]; exact orderedInsert_cons_of_lt k0 v c1tail hvk0
        have ih1 := ih c1 (by simp) hs1 ho1 hvm.2
        rcases hres : insertNode c1 v with c_2 | ⟨l, k, r⟩ <;> rw [hres] at ih1
        · obtain ⟨hoc2, hvc2⟩ := ih1
          have hci : childIns [c0, c1] 1 v = some (InsRes.one c_2) := by
            simp only [childIns]; rw [hres]
          rw [insertNode_sub_one hi hci]
          refine ⟨?_, ?_⟩
          · simp only [OrdInv, OrdInvL, SepOK, List.take, List.drop, List.cons_append,
              List.nil_append]
            refine ⟨⟨ho0, hoc2, trivial⟩, hbel0, ?_⟩
            rw [hvc2, hoi1]
            rfl
          · show vals (BTreeNode.subtree [c0, c_2] [k0] (n+1)) = _
            rw [vals_sub2, hvt, hvc2, orderedInsert_append_left v _ _ hall0]
        · obtain ⟨holx, horx, hbelk, hhdk, hlne, hvalx⟩ := ih1
          have hhdl : (vals l).head? = some k0 := by
            have := congrArg List.head? hvalx
            rw [List.head?_append_of_ne_nil _ hlne, hoi1] at this
            simpa using this
          have hk0k : k0 < k := hbelk k0 (List.mem_of_mem_head? hhdl)
          have hci : childIns [c0, c1] 1 v = some (InsRes.split l k r) := by
            simp only [childIns]; rw [hres]
          have hks2 : List.insertionSort (· ≤ ·) ([k0] ++ [k]) = [k0, k] := by
            rw [sortPush [k0] k (by simp)]
            simp [List.orderedInsert, not_le_of_lt hk0k]
          rw [insertNode_sub_split_small hi hci (by rw [hks2]; simp [hmk]), hks2]
          refine ⟨?_, ?_⟩
          · simp only [OrdInv, OrdInvL, SepOK, List.take, List.drop, List.cons_append,
              List.nil_append]
            exact ⟨⟨ho0, holx, horx, trivial⟩, hbel0, hhdl, hbelk, hhdk⟩
          · show vals (BTreeNode.subtree [c0, l, r] [k0, k] (n+1)) = _
            rw [vals_sub3, hvt, hvalx, orderedInsert_append_left v _ _ hall0]
    · simp only [StructInvL] at hsl
      obtain ⟨hs0, hs1, hs2x, -⟩ := hsl
      obtain ⟨hol, hsep⟩ := holsep
      simp only [OrdInvL] at hol
      obtain ⟨ho0, ho1, ho2x, -⟩ := hol
      have hsep2 : belowAll (vals c0) k0 ∧ (vals c1).head? = some k0 ∧
          belowAll (vals c1) k1 ∧ (vals c2).head? = some k1 := by
        simpa [SepOK] using hsep
      obtain ⟨hbel0, hhd1, hbel1, hhd2⟩ := hsep2
      have hvt : vals (BTreeNode.subtree [c0, c1, c2] [k0, k1] n) =
          vals c0 ++ (vals c1 ++ vals c2) := vals_sub3 c0 c1 c2 [k0, k1] n
      have hvm : v ∉ vals c0 ∧ v ∉ vals c1 ∧ v ∉ vals c2 := by
        rw [hvt] at hv
        simp only [List.mem_append] at hv
        exact ⟨fun h => hv (Or.inl h), fun h => hv (Or.inr (Or.inl h)),
          fun h => hv (Or.inr (Or.inr h))⟩
      have s1 : (vals c1).Sorted (· < ·) := vals_sorted_lt c1 hs1 ho1
      have s2 : (vals c2).Sorted (· < ·) := vals_sorted_lt c2 hs2x ho2x
      have hge1 : ∀ y ∈ vals c1, k0 ≤ y := sorted_head_le _ k0 s1 hhd1
      have hge2 : ∀ y ∈ vals c2, k1 ≤ y := sorted_head_le _ k1 s2 hhd2
      have hk0mem : k0 ∈ vals c1 := List.mem_of_mem_head? hhd1
      have hk1mem : k1 ∈ vals c2 := List.mem_of_mem_head? hhd2
      have hk01 : k0 < k1 := hbel1 k0 hk0mem
      have hsk : List.Sorted (· ≤ ·) [k0, k1] := by
        rw [List.sorted_cons]
        exact ⟨by simpa using hk01.le, by simp⟩
      have hc1ne : vals c1 ≠ [] := by
        obtain ⟨t2, ht2⟩ := List.head?_eq_some_iff.mp hhd1
        rw [ht2]; exact List.cons_ne_nil _ _
      by_cases hvlt : v < k0
      case pos =>
        have hi : getChildrenIndexByValue [k0, k1] v = 0 := by
          simp [getChildrenIndexByValue, hvlt]
        have hall12 : ∀ y ∈ vals c1 ++ vals c2, v ≤ y := by
          intro y hy
          rcases List.mem_append.mp hy with hy1 | hy2
          · exact (hvlt.trans_le (hge1 y hy1)).le
          · exact ((hvlt.trans hk01).trans_le (hge2 y hy2)).le
        have ih0 := ih c0 (by simp) hs0 ho0 hvm.1
        rcases hres : insertNode c0 v with c_2 | ⟨l, k, r⟩ <;> rw [hres] at ih0
        · obtain ⟨hoc2, hvc2⟩ := ih0
          have hci : childIns [c0, c1, c2] 0 v = some (InsRes.one c_2) := by
            simp only [childIns]; rw [hres]
          rw [insertNode_sub_one hi hci]
          refine ⟨?_, ?_⟩
          · simp only [OrdInv, OrdInvL, SepOK, List.take, List.drop, List.cons_append,
              List.nil_append]
            refine ⟨⟨hoc2, ho1, ho2x, trivial⟩, ?_, hhd1, hbel1, hhd2⟩
            intro x hx
            rw [hvc2] at hx
            rcases (List.mem_orderedInsert _).mp hx with rfl | hx2
            · exact hvlt
            · exact hbel0 x hx2
          · show vals (BTreeNode.subtree [c_2, c1, c2] [k0, k1] (n+1)) = _
            rw [vals_sub3, hvt, hvc2, orderedInsert_append_right v _ _ hall12]
        · obtain ⟨holx, horx, hbelk, hhdk, hlne, hvalx⟩ := ih0
          have helem : ∀ x ∈ vals l ++ vals r, x < k0 := by
            intro x hx
            rw [hvalx] at hx
            rcases (List.mem_orderedInsert _).mp hx with rfl | hx2
            · exact hvlt
            · exact hbel0 x hx2
          have hkk0 : k < k0 := helem k
            (List.mem_append.mpr (Or.inr (List.mem_of_mem_head? hhdk)))
          have hci : childIns [c0, c1, c2] 0 v = some (InsRes.split l k r) := by
            simp only [childIns]; rw [hres]
          have hks2 : List.insertionSort (· ≤ ·) ([k0, k1] ++ [k]) = [k, k0, k1] := by
            rw [sortPush [k0, k1] k hsk]
            simp [List.orderedInsert, hkk0.le]
          rw [insertNode_sub_split_big hi hci (by rw [hks2]; simp [hmk]), hks2]
          have e1 : [c0, c1, c2].take 0 ++ [l, r] ++ [c0, c1, c2].drop 1 = [l, r, c1, c2] := rfl
          rw [e1]
          have e2 : List.take 2 [l, r, c1, c2] = [l, r] := rfl
          have e3 : List.drop 2 [l, r, c1, c2] = [c1, c2] := rfl
          have t1 : List.take 1 [k, k0, k1] = [k] := rfl
          have t2 : List.getD [k, k0, k1] 1 k = k0 := rfl
          have t3 : List.drop 2 [k, k0, k1] = [k1] := rfl
          rw [e2, e3, t1, t3]
          refine ⟨?_, ?_, ?_, ?_, ?_, ?_⟩
          · simp only [subtreeNew, OrdInv, OrdInvL, SepOK]
            exact ⟨⟨holx, horx, trivial⟩, hbelk, hhdk⟩
          · simp only [subtreeNew, OrdInv, OrdInvL, SepOK]
            exact ⟨⟨ho1, ho2x, trivial⟩, hbel1, hhd2⟩
          · show belowAll (vals (BTreeNode.subtree [l, r] [k] _)) _
            rw [vals_sub2]
            intro x hx
            rw [t2]
            exact helem x hx
          · show (vals (BTreeNode.subtree [c1, c2] [k1] _)).head? = _
            rw [vals_sub2, List.head?_append_of_ne_nil _ hc1ne, t2]
            exact hhd1
          · show vals (BTreeNode.subtree [l, r] [k] _) ≠ []
            rw [vals_sub2]
            intro hcon
            exact hlne (List.append_eq_nil.mp hcon).1
          · show vals (BTreeNode.subtree [l, r] [k] _) ++
                vals (BTreeNode.subtree [c1, c2] [k1] _) = _
            rw [vals_sub2, vals_sub2, hvt, orderedInsert_append_right v _ _ hall12, ← hvalx]
      case neg =>
        have hvk0 : k0 < v :=
          lt_of_le_of_ne (le_of_not_lt hvlt) (fun he => hvm.2.1 (he ▸ hk0mem))
        have hall0 : ∀ x ∈ vals c0, x < v := fun x hx => (hbel0 x hx).trans hvk0
        by_cases hv1 : k0 < v ∧ v < k1
        case pos =>
          have hi : getChildrenIndexByValue [k0, k1] v = 1 := by
            simp [getChildrenIndexByValue, hvlt, hv1]
          have hall2 : ∀ y ∈ vals c2, v ≤ y := fun y hy =>
            (hv1.2.trans_le (hge2 y hy)).le
          obtain ⟨c1tail, hc1eq⟩ := List.head?_eq_some_iff.mp hhd1
          have hoi1 : (vals c1).orderedInsert (· ≤ ·) v =
              k0 :: (c1tail.orderedInsert (· ≤ ·) v) := by
            rw [hc1eq]; exact orderedInsert_cons_of_lt k0 v c1tail hvk0
          have hoidist : (vals (BTreeNode.subtree [c0, c1, c2] [k0, k1] n)).orderedInsert
              (· ≤ ·) v = vals c0 ++ ((vals c1).orderedInsert (· ≤ ·) v ++ vals c2) := by
            rw [hvt, orderedInsert_append_left v _ _ hall0,
              orderedInsert_append_right v _ _ hall2]
          have ih1 := ih c1 (by simp) hs1 ho1 hvm.2.1
          rcases hres : insertNode c1 v with c_2 | ⟨l, k, r⟩ <;> rw [hres] at ih1
          · obtain ⟨hoc2, hvc2⟩ := ih1
            have hci : childIns [c0, c1, c2] 1 v = some (InsRes.one c_2) := by
              simp only [childIns]; rw [hres]
            rw [insertNode_sub_one hi hci]
            refine ⟨?_, ?_⟩
            · simp only [OrdInv, OrdInvL, SepOK, List.take, List.drop, List.cons_append,
                List.nil_append]
              refine ⟨⟨ho0, hoc2, ho2x, trivial⟩, hbel0, ?_, ?_, hhd2⟩
              · rw [hvc2, hoi1]; rfl
              · intro x hx
                rw [hvc2] at hx
                rcases (List.mem_orderedInsert _).mp hx with rfl | hx2
                · exact hv1.2
                · exact hbel1 x hx2
            · show vals (BTreeNode.subtree [c0, c_2, c2] [k0, k1] (n+1)) = _
              rw [vals_sub3, hvc2, hoidist]
          · obtain ⟨holx, horx, hbelk, hhdk, hlne, hvalx⟩ := ih1
            have hhdl : (vals l).head? = some k0 := by
              have hcg := congrArg List.head? hvalx
              rw [List.head?_append_of_ne_nil _ hlne, hoi1] at hcg
              simpa using hcg
            have hk0k : k0 < k := hbelk k0 (List.mem_of_mem_head? hhdl)
            have hkk1 : k < k1 := by
              have hkmem : k ∈ vals l ++ vals r :=
                List.mem_append.mpr (Or.inr (List.mem_of_mem_head? hhdk))
              rw [hvalx] at hkmem
              rcases (List.mem_orderedInsert _).mp hkmem with rfl | hx2
              · exact hv1.2
              · exact hbel1 k hx2
            have hci : childIns [c0, c1, c2] 1 v = some (InsRes.split l k r) := by
              simp only [childIns]; rw [hres]
            have hks2 : List.insertionSort (· ≤ ·) ([k0, k1] ++ [k]) = [k0, k, k1] := by
              rw [sortPush [k0, k1] k hsk]
              simp [List.orderedInsert, not_le_of_lt hk0k, hkk1.le]
            rw [insertNode_sub_split_big hi hci (by rw [hks2]; simp [hmk]), hks2]
            have e1 : [c0, c1, c2].take 1 ++ [l, r] ++ [c0, c1, c2].drop 2 =
                [c0, l, r, c2] := rfl
            rw [e1]
            have e2 : List.take 2 [c0, l, r, c2] = [c0, l] := rfl
            have e3 : List.drop 2 [c0, l, r, c2] = [r, c2] := rfl
            have t1 : List.take 1 [k0, k, k1] = [k0] := rfl
            have t2 : List.getD [k0, k, k1] 1 k = k := rfl
            have t3 : List.drop 2 [k0, k, k1] = [k1] := rfl
            rw [e2, e3, t1, t3]
            have hrne : vals r ≠ [] := by
              obtain ⟨t4, ht4⟩ := List.head?_eq_some_iff.mp hhdk
              rw [ht4]; exact List.cons_ne_nil _ _
            have hbelrk1 : ∀ x ∈ vals r, x < k1 := by
              intro x hx
              have : x ∈ vals l ++ vals r := List.mem_append.mpr (Or.inr hx)
              rw [hvalx] at this
              rcases (List.mem_orderedInsert _).mp this with rfl | hx2
              · exact hv1.2
              · exact hbel1 x hx2
            refine ⟨?_, ?_, ?_, ?_, ?_, ?_⟩
            · simp only [subtreeNew, OrdInv, OrdInvL, SepOK]
              exact ⟨⟨ho0, holx, trivial⟩, hbel0, hhdl⟩
            · simp only [subtreeNew, OrdInv, OrdInvL, SepOK]
              exact ⟨⟨horx, ho2x, trivial⟩, hbelrk1, hhd2⟩
            · show belowAll (vals (BTreeNode.subtree [c0, l] [k0] _)) _
              rw [vals_sub2, t2]
              intro x hx
              rcases List.mem_append.mp hx with hx0 | hxl
              · exact (hbel0 x hx0).trans hk0k
              · exact hbelk x hxl
            · show (vals (BTreeNode.subtree [r, c2] [k1] _)).head? = _
              rw [vals_sub2, List.head?_append_of_ne_nil _ hrne, t2]
              exact hhdk
            · show vals (BTreeNode.subtree [c0, l] [k0] _) ≠ []
              rw [vals_sub2]
              intro hcon
              exact vals_ne_nil c0 hs0 (List.append_eq_nil.mp hcon).1
            · show vals (BTreeNode.subtree [c0, l] [k0] _) ++
                  vals (BTreeNode.subtree [r, c2] [k1] _) = _
              rw [vals_sub2, vals_sub2, hoidist, ← hvalx]
              simp [List.append_assoc]
        case neg =>
          have hvk1 : k1 < v := by
            have hge : k1 ≤ v := by
              rcases lt_trichotomy v k1 with h | h | h
              · exact absurd ⟨hvk0, h⟩ hv1
              · exact h.ge
              · exact h.le
            exact lt_of_le_of_ne hge (fun he => hvm.2.2 (he ▸ hk1mem))
          have hi : getChildrenIndexByValue [k0, k1] v = 2 := by
            simp [getChildrenIndexByValue, hvlt, hv1]
          have hall1 : ∀ x ∈ vals c1, x < v := fun x hx => (hbel1 x hx).trans hvk1
          obtain ⟨c2tail, hc2eq⟩ := List.head?_eq_some_iff.mp hhd2
          have hoi2 : (vals c2).orderedInsert (· ≤ ·) v =
              k1 :: (c2tail.orderedInsert (· ≤ ·) v) := by
            rw [hc2eq]; exact orderedInsert_cons_of_lt k1 v c2tail hvk1
          have hoidist : (vals (BTreeNode.subtree [c0, c1, c2] [k0, k1] n)).orderedInsert
              (· ≤ ·) v = vals c0 ++ (vals c1 ++ (vals c2).orderedInsert (· ≤ ·) v) := by
            rw [hvt, orderedInsert_append_left v _ _ hall0,
              orderedInsert_append_left v _ _ hall1]
          have ih2 := ih c2 (by simp) hs2x ho2x hvm.2.2
          rcases hres : insertNode c2 v with c_2 | ⟨l, k, r⟩ <;> rw [hres] at ih2
          · obtain ⟨hoc2, hvc2⟩ := ih2
            have hci : childIns [c0, c1, c2] 2 v = some (InsRes.one c_2) := by
              simp only [childIns]; rw [hres]
            rw [insertNode_sub_one hi hci]
            refine ⟨?_, ?_⟩
            · simp only [OrdInv, OrdInvL, SepOK, List.take, List.drop, List.cons_append,
                List.nil_append]
              refine ⟨⟨ho0, ho1, hoc2, trivial⟩, hbel0, hhd1, hbel1, ?_⟩
              rw [hvc2, hoi2]
              rfl
            · show vals (BTreeNode.subtree [c0, c1, c_2] [k0, k1] (n+1)) = _
              rw [vals_sub3, hvc2, hoidist]
          · obtain ⟨holx, horx, hbelk, hhdk, hlne, hvalx⟩ := ih2
            have hhdl : (vals l).head? = some k1 := by
              have hcg := congrArg List.head? hvalx
              rw [List.head?_append_of_ne_nil _ hlne, hoi2] at hcg
              simpa using hcg
            have hk1k : k1 < k := hbelk k1 (List.mem_of_mem_head? hhdl)
            have hci : childIns [c0, c1, c2] 2 v = some (InsRes.split l k r) := by
              simp only [childIns]; rw [hres]
            have hks2 : List.insertionSort (· ≤ ·) ([k0, k1] ++ [k]) = [k0, k1, k] := by
              rw [sortPush [k0, k1] k hsk]
              simp [List.orderedInsert, not_le_of_lt hk1k, not_le_of_lt (hk01.trans hk1k)]
            rw [insertNode_sub_split_big hi hci (by rw [hks2]; simp [hmk]), hks2]
            have e1 : [c0, c1, c2].take 2 ++ [l, r] ++ [c0, c1, c2].drop 3 =
                [c0, c1, l, r] := rfl
            rw [e1]
            have e2 : List.take 2 [c0, c1, l, r] = [c0, c1] := rfl
            have e3 : List.drop 2 [c0, c1, l, r] = [l, r] := rfl
            have t1 : List.take 1 [k0, k1, k] = [k0] := rfl
            have t2 : List.getD [k0, k1, k] 1 k = k1 := rfl
            have t3 : List.drop 2 [k0, k1, k] = [k] := rfl
            rw [e2, e3, t1, t3]
            refine ⟨?_, ?_, ?_, ?_, ?_, ?_⟩
            · simp only [subtreeNew, OrdInv, OrdInvL, SepOK]
              exact ⟨⟨ho0, ho1, trivial⟩, hbel0, hhd1⟩
            · simp only [subtreeNew, OrdInv, OrdInvL, SepOK]
              exact ⟨⟨holx, horx, trivial⟩, hbelk, hhdk⟩
            · show belowAll (vals (BTreeNode.subtree [c0, c1] [k0] _)) _
              rw [vals_sub2, t2]
              intro x hx
              rcases List.mem_append.mp hx with hx0 | hx1
              · exact (hbel0 x hx0).trans hk01
              · exact hbel1 x hx1
            · show (vals (BTreeNode.subtree [l, r] [k] _)).head? = _
              rw [vals_sub2, List.head?_append_of_ne_nil _ hlne, t2]
              exact hhdl
            · show vals (BTreeNode.subtree [c0, c1] [k0] _) ≠ []
              rw [vals_sub2]
              intro hcon
              exact vals_ne_nil c0 hs0 (List.append_eq_nil.mp hcon).1
            · show vals (BTreeNode.subtree [c0, c1] [k0] _) ++
                  vals (BTreeNode.subtree [l, r] [k] _) = _
              rw [vals_sub2, vals_sub2, hoidist, ← hvalx]
              simp [List.append_assoc]

/-- Ordering invariant of a tree handle. -/
def BTree.Ord {T : Type} [LinearOrder T] (t : BTree T) : Prop :=
  ∀ r, t.root = some r → OrdInv r

/-- The stored values of a tree handle, in leaf-chain order. -/
theorem valsOf_root {T : Type} (t : BTree T) (r : BTreeNode T) (h : t.root = some r) :
    t.valsOf = vals r := by
  simp [BTree.valsOf, h]

/-- `BTree.insert` of a fresh value preserves the ordering invariant and
performs an ordered insertion on the stored value sequence. -/
theorem insert_ord {T : Type} [LinearOrder T] (t : BTree T) (v : T) (hi : t.Inv)
    (ho : t.Ord) (hv : v ∉ t.valsOf) :
    (t.insert v).Ord ∧ (t.insert v).valsOf = t.valsOf.orderedInsert (· ≤ ·) v := by
  cases t with | mk root =>
  cases root with
  | none =>
    constructor
    · intro r hr
      simp only [BTree.insert] at hr
      injection hr with hr
      subst hr
      simp [OrdInv]
    · simp [BTree.insert, BTree.valsOf, vals, List.orderedInsert]
  | some r =>
    have hs := hi r rfl
    have hor := ho r rfl
    have hvr : v ∉ vals r := by rwa [valsOf_root _ r rfl] at hv
    have hspec := insertNode_ord v r hs hor hvr
    simp only [BTree.insert]
    rcases hres : insertNode r v with r2 | ⟨l, k, rr⟩ <;> rw [hres] at hspec
    · constructor
      · intro x hx
        injection hx with hx
        subst hx
        exact hspec.1
      · rw [valsOf_root ⟨some r2⟩ r2 rfl, valsOf_root ⟨some r⟩ r rfl]
        exact hspec.2
    · obtain ⟨hol, hor2, hbel, hhd, hlne, hvals⟩ := hspec
      constructor
      · intro x hx
        injection hx with hx
        subst hx
        simp only [newRootAfterDivision, subtreeNew, OrdInv, OrdInvL, SepOK]
        exact ⟨⟨hol, hor2, trivial⟩, hbel, hhd⟩
      · rw [valsOf_root _ _ rfl, valsOf_root ⟨some r⟩ r rfl,
          show vals (newRootAfterDivision l rr k) = vals l ++ vals rr from vals_sub2 l rr [k] _]
        exact hvals

/-- Bulk insertion of pairwise-distinct values, none of which is already
stored, preserves both invariants and makes the stored sequence the previous
sequence with all new values inserted (as a permutation). -/
theorem extend_ord {T : Type} [LinearOrder T] :
    ∀ (l : List T) (t : BTree T), t.Inv → t.Ord → l.Nodup → (∀ x ∈ l, x ∉ t.valsOf) →
      (t.extend l).Ord ∧ (t.extend l).valsOf.Perm (t.valsOf ++ l) := by
  intro l
  induction l with
  | nil => intro t _ ho _ _; exact ⟨ho, by simp [BTree.extend]⟩
  | cons v l ihl =>
    intro t hi ho hnd hfresh
    have h1 := insert_ord t v hi ho (hfresh v (by simp))
    have h2 := insert_inv t v hi
    have hfresh2 : ∀ x ∈ l, x ∉ (t.insert v).valsOf := by
      intro x hx hmem
      rw [h1.2] at hmem
      rcases (List.mem_orderedInsert _).mp hmem with rfl | hmem2
      · exact (List.nodup_cons.mp hnd).1 hx
      · exact hfresh x (by simp [hx]) hmem2
    have h3 := ihl (t.insert v) h2.1 h1.1 (List.nodup_cons.mp hnd).2 hfresh2
    have he : t.extend (v :: l) = (t.insert v).extend l := rfl
    rw [he]
    refine ⟨h3.1, h3.2.trans ?_⟩
    have p1 : ((t.insert v).valsOf ++ l).Perm ((v :: t.valsOf) ++ l) := by
      rw [h1.2]
      exact (List.perm_orderedInsert _ v t.valsOf).append_right l
    have p2 : ((v :: t.valsOf) ++ l).Perm (t.valsOf ++ v :: l) := by
      simp only [List.cons_append]
      exact List.perm_middle.symm
    exact p1.trans p2

/-- Bulk construction from a duplicate-free sequence: both invariants hold and
the stored value sequence is the ascending sort of the input. -/
theorem fromList_sorted {T : Type} [LinearOrder T] (l : List T) (hnd : l.Nodup) :
    (BTree.fromList l).Inv ∧ (BTree.fromList l).Ord ∧
      (BTree.fromList l).valsOf = List.insertionSort (· ≤ ·) l := by
  have hi := fromList_inv l
  have hbase : (BTree.new : BTree T).Ord := fun r hr => by cases hr
  have hfresh : ∀ x ∈ l, x ∉ (BTree.new : BTree T).valsOf := by
    intro x _ hmem
    simp [BTree.new, BTree.valsOf] at hmem
  have h := extend_ord l BTree.new (fun r hr => by cases hr) hbase hnd hfresh
  refine ⟨hi, h.1, ?_⟩
  have hperm : (BTree.fromList l).valsOf.Perm l := by
    have h2 := h.2
    simpa [BTree.new, BTree.valsOf] using h2
  have hsorted : (BTree.fromList l).valsOf.Sorted (· ≤ ·) := by
    cases hroot : (BTree.fromList l).root with
    | none => simp [BTree.valsOf, hroot]
    | some r =>
      rw [valsOf_root _ r hroot]
      exact (vals_sorted_lt r (hi r hroot) (h.1 r hroot)).le_of_lt
  exact List.eq_of_perm_of_sorted (hperm.trans (List.perm_insertionSort _ l).symm) hsorted
    (List.sorted_insertionSort _ l)

/-- Forward iteration of a tree built through the public API yields exactly its
stored value sequence. -/
theorem iter_forward {T : Type} [LinearOrder T] (t : BTree T) (hi : t.Inv) :
    forwardList t.iter = t.valsOf := by
  cases hroot : t.root with
  | none => simp [BTree.iter, hroot, BTree.valsOf, forwardList, forwardN_nil]
  | some r =>
    simp only [BTree.iter, hroot]
    rw [forwardList_flatten [] (leavesList r) (fun L hL => (leavesOk r (hi r hroot) L hL).1)]
    rw [flattenLeaves r, valsOf_root t r hroot]

/-- C1, amended: for a PAIRWISE-DISTINCT input sequence, building the tree and
iterating forward yields exactly the ascending sort of the inputs, and the
result is the same for every permutation of the input sequence. -/
theorem c1_amended_theorem {T : Type} [LinearOrder T] (l l2 : List T) (hnd : l.Nodup)
    (hp : l.Perm l2) :
    forwardList (BTree.fromList l).iter = List.insertionSort (· ≤ ·) l ∧
    forwardList (BTree.fromList l2).iter = forwardList (BTree.fromList l).iter := by
  have h1 := fromList_sorted l hnd
  have h2 := fromList_sorted l2 (hp.nodup_iff.mp hnd)
  have e1 : forwardList (BTree.fromList l).iter = List.insertionSort (· ≤ ·) l := by
    rw [iter_forward _ h1.1, h1.2.2]
  have e2 : forwardList (BTree.fromList l2).iter = List.insertionSort (· ≤ ·) l2 := by
    rw [iter_forward _ h2.1, h2.2.2]
  have esort : List.insertionSort (· ≤ ·) l2 = List.insertionSort (· ≤ ·) l :=
    List.eq_of_perm_of_sorted
      ((List.perm_insertionSort _ l2).trans (hp.symm.trans (List.perm_insertionSort _ l).symm))
      (List.sorted_insertionSort _ l2) (List.sorted_insertionSort _ l)
  exact ⟨e1, e2.trans (esort.trans e1.symm)⟩

/-- C1, witness at the input `[2,0,1]` and its permutation `[0,1,2]`. -/
theorem c1_witness :
    forwardList (BTree.fromList ([2, 0, 1] : List Int)).iter =
        List.insertionSort (· ≤ ·) ([2, 0, 1] : List Int) ∧
      forwardList (BTree.fromList ([0, 1, 2] : List Int)).iter =
        forwardList (BTree.fromList ([2, 0, 1] : List Int)).iter :=
  c1_amended_theorem [2, 0, 1] [0, 1, 2] (by decide) (by decide)

/-- The child scan of `BTreeNode::get` retrieves positionally from the
concatenated child value sequences (list version). -/
theorem childGet_spec {T : Type} [LinearOrder T] (cs : List (BTreeNode T)) (hsl : StructInvL cs)
    (ih : ∀ c ∈ cs, StructInv c → ∀ i : Nat, nodeGet c i = getElem? (vals c) i) :
    ∀ i : Nat, childGet cs i = getElem? (valsL cs) i := by
  induction cs with
  | nil => intro i; simp [childGet, valsL]
  | cons c cs ihl =>
    intro i
    simp only [StructInvL] at hsl
    have hlen : (vals c).length = valuesNumber c := valsLen c hsl.1
    simp only [childGet, valsL]
    by_cases hlt : i < valuesNumber c
    · rw [if_pos hlt, ih c (by simp) hsl.1 i, List.getElem?_append_left (by omega)]
    · rw [if_neg hlt, ihl hsl.2 (fun c2 hc2 => ih c2 (by simp [hc2])),
        List.getElem?_append_right (by omega), hlen]

/-- `BTreeNode::get` retrieves the value at the given position of the stored
sequence (and models the out-of-range panic as `none`). -/
theorem nodeGet_spec {T : Type} [LinearOrder T] :
    ∀ t : BTreeNode T, StructInv t → ∀ i : Nat, nodeGet t i = getElem? (vals t) i := by
  intro t
  induction t using nodeInd with
  | hleaf vs => intro _ i; simp [nodeGet, vals]
  | hsub cs ks n ih =>
    intro hs i
    have hsl : StructInvL cs := by simp only [StructInv] at hs; exact hs.2.2.2.2.2
    simp only [nodeGet, vals]
    exact childGet_spec cs hsl ih i

/-- `BTree.get` retrieves the value at the given rank of the stored sequence,
returning `none` exactly for out-of-range ranks. -/
theorem get_spec {T : Type} [LinearOrder T] (t : BTree T) (hi : t.Inv) (i : Nat) :
    t.get i = getElem? t.valsOf i := by
  cases hroot : t.root with
  | none =>
    have hvals : t.valsOf = [] := by simp [BTree.valsOf, hroot]
    have hlen : t.len = 0 := by simp [BTree.len, hroot]
    simp [BTree.get, hlen, hroot, hvals]
  | some r =>
    have hs := hi r hroot
    have hvals : t.valsOf = vals r := valsOf_root t r hroot
    have hlen : t.len = valuesNumber r := by simp [BTree.len, hroot]
    have hvlen : (vals r).length = valuesNumber r := valsLen r hs
    simp only [BTree.get, hlen, hroot, hvals]
    by_cases hle : valuesNumber r ≤ i
    · rw [if_pos hle, eq_comm]
      exact List.getElem?_eq_none_iff.mpr (by omega)
    · rw [if_neg hle]
      exact nodeGet_spec r hs i

/-- C4, amended: for a PAIRWISE-DISTINCT input sequence, `get r` returns the
`r`-th smallest stored value (0-based) for `r < len()` and `none` for
`r ≥ len()` — jointly: `get r` equals the `r`-th entry of the ascending sort
of the inputs. -/
theorem c4_amended_theorem {T : Type} [LinearOrder T] (l : List T) (i : Nat)
    (hnd : l.Nodup) :
    (BTree.fromList l).get i = getElem? (List.insertionSort (· ≤ ·) l) i := by
  rw [get_spec _ (fromList_inv l) i, (fromList_sorted l hnd).2.2]

/-- C4, witness at the input `[2,0,1]`, ranks 1 and 3. -/
theorem c4_witness :
    (BTree.fromList ([2, 0, 1] : List Int)).get 1 =
        getElem? (List.insertionSort (· ≤ ·) ([2, 0, 1] : List Int)) 1 ∧
      (BTree.fromList ([2, 0, 1] : List Int)).get 3 =
        getElem? (List.insertionSort (· ≤ ·) ([2, 0, 1] : List Int)) 3 :=
  ⟨c4_amended_theorem [2, 0, 1] 1 (by decide), c4_amended_theorem [2, 0, 1] 3 (by decide)⟩

/-- The descent of `BTreeNode::find` reaches the leaf sitting at position
`findLeafIdx` of the leaf chain. -/
theorem find_spec {T : Type} [LinearOrder T] (v : T) :
    ∀ t : BTreeNode T, StructInv t →
      findLeafIdx t v < (leavesList t).length ∧
      getElem? (leavesList t) (findLeafIdx t v) = some (vals (BTreeNode.find t v)) := by
  intro t
  induction t using nodeInd with
  | hleaf vs => intro _; simp [findLeafIdx, leavesList, BTreeNode.find, vals]
  | hsub cs ks n ih =>
    intro hs
    have hsl : StructInvL cs := by simp only [StructInv] at hs; exact hs.2.2.2.2.2
    rcases structShape cs ks n hs with ⟨c0, c1, k0, rfl, rfl⟩ | ⟨c0, c1, c2, k0, k1, rfl, rfl⟩
    · simp only [StructInvL] at hsl
      obtain ⟨hs0, hs1, -⟩ := hsl
      have hls : leavesList (BTreeNode.subtree [c0, c1] [k0] n) =
          leavesList c0 ++ leavesList c1 := by
        simp [leavesList, leavesListL]
      by_cases hv : v < k0
      · have hi : getChildrenIndexByValue [k0] v = 0 := by simp [getChildrenIndexByValue, hv]
        have hfi : findLeafIdx (BTreeNode.subtree [c0, c1] [k0] n) v = findLeafIdx c0 v := by
          simp [findLeafIdx, hi, childFindIdx]
        have hfd : BTreeNode.find (BTreeNode.subtree [c0, c1] [k0] n) v =
            BTreeNode.find c0 v := by
          simp [BTreeNode.find, hi, childFind]
        obtain ⟨ih1, ih2⟩ := ih c0 (by simp) hs0
        rw [hfi, hfd, hls]
        refine ⟨by simp only [List.length_append]; omega, ?_⟩
        rw [List.getElem?_append_left ih1]
        exact ih2
      · have hi : getChildrenIndexByValue [k0] v = 1 := by simp [getChildrenIndexByValue, hv]
        have hfi : findLeafIdx (BTreeNode.subtree [c0, c1] [k0] n) v =
            (leavesList c0).length + findLeafIdx c1 v := by
          simp [findLeafIdx, hi, childFindIdx]
        have hfd : BTreeNode.find (BTreeNode.subtree [c0, c1] [k0] n) v =
            BTreeNode.find c1 v := by
          simp [BTreeNode.find, hi, childFind]
        obtain ⟨ih1, ih2⟩ := ih c1 (by simp) hs1
        rw [hfi, hfd, hls]
        refine ⟨by simp only [List.length_append]; omega, ?_⟩
        rw [List.getElem?_append_right (by omega), Nat.add_sub_cancel_left]
        exact ih2
    · simp only [StructInvL] at hsl
      obtain ⟨hs0, hs1, hs2x, -⟩ := hsl
      have hls : leavesList (BTreeNode.subtree [c0, c1, c2] [k0, k1] n) =
          leavesList c0 ++ (leavesList c1 ++ leavesList c2) := by
        simp [leavesList, leavesListL]
      by_cases hv0 : v < k0
      · have hi : getChildrenIndexByValue [k0, k1] v = 0 := by
          simp [getChildrenIndexByValue, hv0]
        have hfi : findLeafIdx (BTreeNode.subtree [c0, c1, c2] [k0, k1] n) v =
            findLeafIdx c0 v := by
          simp [findLeafIdx, hi, childFindIdx]
        have hfd : BTreeNode.find (BTreeNode.subtree [c0, c1, c2] [k0, k1] n) v =
            BTreeNode.find c0 v := by
          simp [BTreeNode.find, hi, childFind]
        obtain ⟨ih1, ih2⟩ := ih c0 (by simp) hs0
        rw [hfi, hfd, hls]
        refine ⟨by simp only [List.length_append]; omega, ?_⟩
        rw [List.getElem?_append_left ih1]
        exact ih2
      · by_cases hv1 : k0 < v ∧ v < k1
        · have hi : getChildrenIndexByValue [k0, k1] v = 1 := by
            simp [getChildrenIndexByValue, hv0, hv1]
          have hfi : findLeafIdx (BTreeNode.subtree [c0, c1, c2] [k0, k1] n) v =
              (leavesList c0).length + findLeafIdx c1 v := by
            simp [findLeafIdx, hi, childFindIdx]
          have hfd : BTreeNode.find (BTreeNode.subtree [c0, c1, c2] [k0, k1] n) v =
              BTreeNode.find c1 v := by
            simp [BTreeNode.find, hi, childFind]
          obtain ⟨ih1, ih2⟩ := ih c1 (by simp) hs1
          rw [hfi, hfd, hls]
          refine ⟨by simp only [List.length_append]; omega, ?_⟩
          rw [List.getElem?_append_right (by omega), Nat.add_sub_cancel_left,
            List.getElem?_append_left ih1]
          exact ih2
        · have hi : getChildrenIndexByValue [k0, k1] v = 2 := by
            simp [getChildrenIndexByValue, hv0, hv1]
          have hfi : findLeafIdx (BTreeNode.subtree [c0, c1, c2] [k0, k1] n) v =
              (leavesList c0).length + ((leavesList c1).length + findLeafIdx c2 v) := by
            simp [findLeafIdx, hi, childFindIdx]
          have hfd : BTreeNode.find (BTreeNode.subtree [c0, c1, c2] [k0, k1] n) v =
              BTreeNode.find c2 v := by
            simp [BTreeNode.find, hi, childFind]
          obtain ⟨ih1, ih2⟩ := ih c2 (by simp) hs2x
          rw [hfi, hfd, hls]
          refine ⟨by simp only [List.length_append]; omega, ?_⟩
          rw [List.getElem?_append_right (by omega), Nat.add_sub_cancel_left,
            List.getElem?_append_right (by omega), Nat.add_sub_cancel_left]
          exact ih2

/-- `positionGe` finds no position exactly when every element is strictly
below the probe. -/
theorem positionGe_none {T : Type} [LinearOrder T] (v : T) :
    ∀ L : List T, positionGe v L = none ↔ ∀ x ∈ L, x < v := by
  intro L
  induction L with
  | nil => simp [positionGe]
  | cons a L ihl =>
    simp only [positionGe]
    by_cases hva : v ≤ a
    · rw [if_pos hva]
      simp only [reduceCtorEq, false_iff]
      intro hcon
      exact absurd (hcon a (by simp)) (not_lt_of_le hva)
    · rw [if_neg hva]
      constructor
      · intro h x hx
        rcases List.mem_cons.mp hx with rfl | hx2
        · exact not_le.mp hva
        · rcases hpos : positionGe v L with - | j2
          · exact (ihl.mp hpos) x hx2
          · rw [hpos] at h; simp at h
      · intro h
        have hnone : positionGe v L = none := ihl.mpr (fun x hx => h x (by simp [hx]))
        rw [hnone]
        rfl

/-- What `positionGe` returns: a position inside the list whose element is at
least the probe, with every earlier element strictly below the probe. -/
theorem positionGe_spec {T : Type} [LinearOrder T] (v : T) :
    ∀ (L : List T) (j : Nat), positionGe v L = some j →
      j < L.length ∧ (∀ w, getElem? L j = some w → v ≤ w) ∧
        ∀ m, m < j → ∀ x, getElem? L m = some x → x < v := by
  intro L
  induction L with
  | nil => intro j h; simp [positionGe] at h
  | cons a L ihl =>
    intro j h
    simp only [positionGe] at h
    by_cases hva : v ≤ a
    · rw [if_pos hva] at h
      injection h with h
      subst h
      refine ⟨by simp, ?_, by omega⟩
      intro w hw
      simp only [List.getElem?_cons_zero] at hw
      injection hw with hw
      subst hw
      exact hva
    · rw [if_neg hva] at h
      rcases hpos : positionGe v L with - | j2
      · rw [hpos] at h; cases h
      · rw [hpos] at h
        have h2 : some (j2 + 1) = some j := h
        injection h2 with h2
        subst h2
        obtain ⟨hj2, hw2, hm2⟩ := ihl j2 hpos
        refine ⟨by simp only [List.length_cons]; omega, ?_, ?_⟩
        · intro w hw
          rw [List.getElem?_cons_succ] at hw
          exact hw2 w hw
        · intro m hm x hx
          cases m with
          | zero =>
            simp only [List.getElem?_cons_zero] at hx
            injection hx with hx
            subst hx
            exact not_le.mp hva
          | succ m2 =>
            rw [List.getElem?_cons_succ] at hx
            exact hm2 m2 (by omega) x hx

/-- C3, amended: `find v` on an empty tree gives an exhausted cursor; on a
nonempty tree it positions a cursor inside the single leaf chosen by the
descent rule: if every value of that leaf is below `v` the cursor is exhausted
(this can happen at interior leaves), and otherwise the cursor's next forward
value is the smallest value `≥ v` stored in that leaf. -/
theorem c3_amended_theorem {T : Type} [LinearOrder T] (l : List T) (v : T) :
    ((BTree.fromList ([] : List T)).find v).next = StepResult.exhausted ∧
    ∀ r, (BTree.fromList l).root = some r →
      ((∀ x ∈ vals (BTreeNode.find r v), x < v) →
        ((BTree.fromList l).find v).next = StepResult.exhausted) ∧
      ((∃ x ∈ vals (BTreeNode.find r v), v ≤ x) →
        ∃ w, (((BTree.fromList l).find v).next).yieldedVal = some w ∧
          w ∈ vals (BTreeNode.find r v) ∧ v ≤ w ∧
          ∀ x ∈ vals (BTreeNode.find r v), v ≤ x → w ≤ x) := by
  constructor
  · rfl
  · intro r hroot
    have hs := fromList_inv l r hroot
    obtain ⟨hidx, hget⟩ := find_spec v r hs
    constructor
    · intro hall
      have hnone : positionGe v (vals (BTreeNode.find r v)) = none :=
        (positionGe_none v _).mpr hall
      simp only [BTree.find, hroot, hnone]
      rfl
    · rintro ⟨x0, hx0mem, hx0ge⟩
      rcases hpos : positionGe v (vals (BTreeNode.find r v)) with - | j
      · exact absurd ((positionGe_none v _).mp hpos x0 hx0mem) (not_lt_of_le hx0ge)
      · obtain ⟨hj, hwge, hmlt⟩ := positionGe_spec v _ j hpos
        have hLmem : vals (BTreeNode.find r v) ∈ leavesList r := List.getElem?_mem hget
        have hLsorted : (vals (BTreeNode.find r v)).Sorted (· ≤ ·) :=
          (leavesOk r hs _ hLmem).2
        have hLget : (leavesList r)[findLeafIdx r v] = vals (BTreeNode.find r v) := by
          have h1 : getElem? (leavesList r) (findLeafIdx r v) =
              some ((leavesList r)[findLeafIdx r v]) :=
            (List.getElem?_eq_some_getElem_iff _ _ hidx).mpr trivial
          have h2 := h1.symm.trans hget
          injection h2
        have hdrop : (leavesList r).drop (findLeafIdx r v) =
            vals (BTreeNode.find r v) :: (leavesList r).drop (findLeafIdx r v + 1) := by
          rw [← List.get_drop_eq_drop _ _ hidx, hLget]
        have hLj : getElem? (vals (BTreeNode.find r v)) j =
            some ((vals (BTreeNode.find r v)).get ⟨j, hj⟩) :=
          (List.getElem?_eq_some_getElem_iff _ _ hj).mpr trivial
        simp only [BTree.find, hroot, hpos, hdrop]
        refine ⟨(vals (BTreeNode.find r v)).get ⟨j, hj⟩, ?_, List.get_mem _ _ _, hwge _ hLj, ?_⟩
        · simp only [BTreeIter.next, hLj]
          by_cases hadv : j + 1 < (vals (BTreeNode.find r v)).length
          · rw [if_pos hadv]; rfl
          · rw [if_neg hadv]; rfl
        · intro x hx hvx
          obtain ⟨m, hm, hxm⟩ := List.mem_iff_getElem.mp hx
          by_cases hmj : m < j
          · exfalso
            have hxlt : x < v := hmlt m hmj x (by
              rw [← hxm]
              exact (List.getElem?_eq_some_getElem_iff _ _ hm).mpr trivial)
            exact absurd hvx (not_le_of_lt hxlt)
          · have hle : (⟨j, hj⟩ : Fin (vals (BTreeNode.find r v)).length) ≤ ⟨m, hm⟩ :=
              Fin.mk_le_mk.mpr (le_of_not_lt hmj)
            have := hLsorted.rel_get_of_le hle
            rw [← hxm]
            exact this

/-- C3, witness: in the tree holding `{0, 1}`, `find 1` yields `1`, the least
stored value `≥ 1` of the destination leaf. -/
theorem c3_witness :
    ∃ w, (((BTree.fromList ([0, 1] : List Int)).find 1).next).yieldedVal = some w ∧
      w ∈ vals (BTreeNode.find (BTreeNode.leaf [0, 1]) 1) ∧ (1 : Int) ≤ w ∧
      ∀ x ∈ vals (BTreeNode.find (BTreeNode.leaf [0, 1]) 1), 1 ≤ x → w ≤ x :=
 by
  have h : BTree.fromList ([0, 1] : List Int) = ⟨some (BTreeNode.leaf [0, 1])⟩ := rfl
  exact ((c3_amended_theorem [0, 1] 1).2 (BTreeNode.leaf [0, 1]) (by rw [h])).2
    ⟨1, by decide, by decide⟩
